import Mathlib

/-!
A shallow embedding of `omp::CardRange`.

Source: `src/omp/CardRange.h`, `src/omp/CardRange.cpp`.

Modelling conventions.
* `std::string` / `const char*` are `List Char`; the terminating NUL that a
  C string cursor sees at the end of the buffer is `'\x00'` (see `deref`).
* `unsigned` values are `Nat`; the sentinel `~0u` is `4294967295`, and
  arithmetic that can wrap is reduced `% 4294967296`.
* `std::array<uint8_t,2>` is `Nat × Nat`; the narrowing cast `(uint8_t)c` is
  `c % 256`.
* `std::locale loc;` is the classic "C" locale: `std::isgraph` holds exactly
  for the codes 0x21..0x7E and `std::tolower` maps `A`..`Z` to `a`..`z`.
* A member function of `CardRange` takes the object as its first argument and
  returns the updated object.
-/

namespace omp

/-- The value of the expression `~0u` (32-bit `unsigned`). -/
def NOT_FOUND : Nat := 4294967295

/-- Modelled from the spec: `CARD_COUNT` is declared in `Constants.h`, which is
not among the sources; the spec fixes a 52-card deck. -/
def CARD_COUNT : Nat := 52

/-- The class `CardRange`. `mCombinations` is the private member of the same
name. Modelled from the spec: `omp_assert` is a macro of `Util.h`, which is not
among the sources; `assertsHeld` records whether every `omp_assert` evaluated so
far on this object had a true condition. -/
structure CardRange where
  mCombinations : List (Nat × Nat)
  assertsHeld : Bool
deriving DecidableEq, Repr

/-- The character under a C string cursor: `*p`. -/
def deref (p : List Char) : Char := p.headD '\x00'

/-- `std::isgraph(c, loc)` in the classic locale. -/
def isgraph (c : Char) : Bool := decide (33 ≤ c.toNat) && decide (c.toNat ≤ 126)

/-- `std::tolower(c, loc)` in the classic locale. -/
def tolower (c : Char) : Char :=
  if 65 ≤ c.toNat ∧ c.toNat ≤ 90 then Char.ofNat (c.toNat + 32) else c

/-- `CardRange::charToRank`. -/
def charToRank (c : Char) : Nat :=
  if c = 'a' then 12
  else if c = 'k' then 11
  else if c = 'q' then 10
  else if c = 'j' then 9
  else if c = 't' then 8
  else if c = '9' then 7
  else if c = '8' then 6
  else if c = '7' then 5
  else if c = '6' then 4
  else if c = '5' then 3
  else if c = '4' then 2
  else if c = '3' then 1
  else if c = '2' then 0
  else if c = 'A' then 12
  else if c = 'K' then 11
  else if c = 'Q' then 10
  else if c = 'J' then 9
  else if c = 'T' then 8
  else NOT_FOUND

/-- `CardRange::rankToChar`. -/
def rankToChar (c : Nat) : Char :=
  match c with
  | 12 => 'A'
  | 11 => 'K'
  | 10 => 'Q'
  | 9 => 'J'
  | 8 => 'T'
  | 7 => '9'
  | 6 => '8'
  | 5 => '7'
  | 4 => '6'
  | 3 => '5'
  | 2 => '4'
  | 1 => '3'
  | 0 => '2'
  | _ => '?'

/-- `CardRange::charToSuit`. -/
def charToSuit (c : Char) : Nat :=
  if c = 'c' then 0
  else if c = 'd' then 1
  else if c = 'h' then 2
  else if c = 's' then 3
  else NOT_FOUND

/-- `CardRange::suitToChar`. -/
def suitToChar (c : Nat) : Char :=
  match c with
  | 0 => 'c'
  | 1 => 'd'
  | 2 => 'h'
  | 3 => 's'
  | _ => '?'

/-- `CardRange::cardNumberToStr`. -/
def cardNumberToStr (c : Nat) : List Char :=
  let rank := c / 4
  let suit := c % 4
  [rankToChar rank, suitToChar suit]

/-- `CardRange::strToCardNumber`; `card[i]` past the end reads the NUL. -/
def strToCardNumber (card : List Char) : Nat :=
  let rank := charToRank (card.getD 0 '\x00')
  let suit := charToSuit (card.getD 1 '\x00')
  (4 * rank + suit) % 4294967296

/-- `CardRange::addCombo`. -/
def CardRange.addCombo (self : CardRange) (c1 c2 : Nat) : CardRange :=
  let swap : Bool :=
    decide (c1 >>> 2 < c2 >>> 2) || (c1 >>> 2 == c2 >>> 2 && decide ((c1 &&& 3) < (c2 &&& 3)))
  let d1 := if swap then c2 else c1
  let d2 := if swap then c1 else c2
  { mCombinations := self.mCombinations ++ [(d1 % 256, d2 % 256)]
    assertsHeld := self.assertsHeld && (c1 != c2) }

/-- `CardRange::addCombos`. -/
def CardRange.addCombos (self : CardRange) (rank1 rank2 : Nat) (suited offsuited : Bool) :
    CardRange :=
  let self :=
    if suited && rank1 != rank2 then
      (List.range 4).foldl
        (fun acc suit => acc.addCombo (4 * rank1 + suit) (4 * rank2 + suit)) self
    else self
  if offsuited then
    (List.range 4).foldl
      (fun acc suit1 =>
        (List.range' (suit1 + 1) (4 - (suit1 + 1))).foldl
          (fun acc suit2 =>
            let acc := acc.addCombo (4 * rank1 + suit1) (4 * rank2 + suit2)
            if rank1 != rank2 then acc.addCombo (4 * rank1 + suit2) (4 * rank2 + suit1)
            else acc)
          acc)
      self
  else self

/-- `CardRange::addCombosPlus`. -/
def CardRange.addCombosPlus (self : CardRange) (rank1 rank2 : Nat) (suited offsuited : Bool) :
    CardRange :=
  if rank1 == rank2 then
    (List.range' rank1 (13 - rank1)).foldl
      (fun acc r => acc.addCombos r r suited offsuited) self
  else
    let hi := if rank1 < rank2 then rank2 else rank1
    let lo := if rank1 < rank2 then rank1 else rank2
    (List.range' lo (hi - lo)).foldl
      (fun acc r => acc.addCombos hi r suited offsuited) self

/-- `CardRange::addAll`. -/
def CardRange.addAll (self : CardRange) : CardRange :=
  (List.range CARD_COUNT).foldl
    (fun acc c1 => (List.range c1).foldl (fun acc c2 => acc.addCombo c1 c2) acc) self

/-- The comparator lambda passed to `std::sort` in `removeDuplicates`. -/
def comboLess (lhs rhs : Nat × Nat) : Bool :=
  if lhs.1 >>> 2 != rhs.1 >>> 2 then decide (lhs.1 >>> 2 < rhs.1 >>> 2)
  else if lhs.2 >>> 2 != rhs.2 >>> 2 then decide (lhs.2 >>> 2 < rhs.2 >>> 2)
  else if (lhs.1 &&& 3) != (rhs.1 &&& 3) then decide ((lhs.1 &&& 3) < (rhs.1 &&& 3))
  else decide ((lhs.2 &&& 3) < (rhs.2 &&& 3))

/-- The predicate lambda passed to `std::unique` in `removeDuplicates`. -/
def comboEq (lhs rhs : Nat × Nat) : Bool :=
  lhs.1 == rhs.1 && lhs.2 == rhs.2

/-- Insertion of one element into a list sorted for `comp`, after the elements
that are not greater. -/
def sortInsert {α : Type} (comp : α → α → Bool) (a : α) : List α → List α
  | [] => [a]
  | b :: l => if comp a b then a :: b :: l else b :: sortInsert comp a l

/-- `std::sort(first, last, comp)`, as an insertion sort. The standard leaves the
algorithm open; `sort_unique_result` below shows that for `comboLess` every
sorted rearrangement of the input is this one. -/
def sort {α : Type} (comp : α → α → Bool) : List α → List α
  | [] => []
  | a :: l => sortInsert comp a (sort comp l)

/-- The loop of `std::unique`: `kept` is the last element written, the list is
what is still to be read. -/
def uniqueFrom {α : Type} (pred : α → α → Bool) (kept : α) : List α → List α
  | [] => [kept]
  | b :: l => if pred kept b then uniqueFrom pred kept l else kept :: uniqueFrom pred b l

/-- `std::unique(first, last, pred)` followed by `erase(last, end)`. -/
def unique {α : Type} (pred : α → α → Bool) : List α → List α
  | [] => []
  | a :: l => uniqueFrom pred a l

/-- `CardRange::removeDuplicates`. -/
def CardRange.removeDuplicates (self : CardRange) : CardRange :=
  { self with mCombinations := unique comboEq (sort comboLess self.mCombinations) }

/-- `CardRange::parseRank`: the result, the cursor, and the out-parameter. -/
def parseRank (p : List Char) : Bool × List Char × Nat :=
  let rank := charToRank (deref p)
  if rank == NOT_FOUND then (false, p, rank) else (true, p.tail, rank)

/-- `CardRange::parseSuit`: the result, the cursor, and the out-parameter. -/
def parseSuit (p : List Char) : Bool × List Char × Nat :=
  let suit := charToSuit (deref p)
  if suit == NOT_FOUND then (false, p, suit) else (true, p.tail, suit)

/-- `CardRange::parseChar`: the result and the cursor. -/
def parseChar (p : List Char) (c : Char) : Bool × List Char :=
  if deref p == c then (true, p.tail) else (false, p)

/-- `CardRange::parseHand`: the result, the cursor, and the object. The ranks and
suits that reach the card computations are at most 12 and 3, so `4 * r + s` does
not wrap. -/
def CardRange.parseHand (self : CardRange) (p : List Char) : Bool × List Char × CardRange :=
  let backtrack := p
  let a := parseRank p
  if !a.1 then (false, a.2.1, self) else
  let r1 := a.2.2
  let b := parseSuit a.2.1
  let explicitSuits := b.1
  let s1 := b.2.2
  let c := parseRank b.2.1
  if !c.1 then (false, backtrack, self) else
  let r2 := c.2.2
  if explicitSuits then
    let d := parseSuit c.2.1
    if !d.1 then (false, backtrack, self) else
    let s2 := d.2.2
    let c1 := 4 * r1 + s1
    let c2 := 4 * r2 + s2
    if c1 == c2 then (false, backtrack, self)
    else (true, d.2.1, self.addCombo c1 c2)
  else
    let o := parseChar c.2.1 'o'
    let s := if o.1 then (false, o.2) else parseChar o.2 's'
    let suited := !o.1
    let offsuited := !s.1
    let plus := parseChar s.2 '+'
    if plus.1 then (true, plus.2, self.addCombosPlus r1 r2 suited offsuited)
    else (true, plus.2, self.addCombos r1 r2 suited offsuited)

/-- The loop `while (parseHand(p) && parseChar(p, ','));` of the constructor,
with a bound on the number of iterations (see `parseLoop_fuel`). -/
def CardRange.parseLoop : Nat → CardRange → List Char → CardRange × List Char
  | 0, self, p => (self, p)
  | fuel + 1, self, p =>
    let h := self.parseHand p
    if h.1 then
      let c := parseChar h.2.1 ','
      if c.1 then CardRange.parseLoop fuel h.2.2 c.2 else (h.2.2, c.2)
    else (h.2.2, h.2.1)

/-- `CardRange::CardRange()`. -/
def CardRange.empty : CardRange := { mCombinations := [], assertsHeld := true }

/-- The first loop of the expression constructor: lowercase, and drop what is
not a graphic character. -/
def normalize (text : List Char) : List Char :=
  (text.filter isgraph).map tolower

/-- `CardRange::CardRange(const std::string& text)`. -/
def CardRange.ofText (text : List Char) : CardRange :=
  let s := normalize text
  let r := (CardRange.parseLoop (s.length + 1) CardRange.empty s).1
  let r := if s = "random".toList then r.addAll else r
  r.removeDuplicates

/-- `CardRange::CardRange(const std::vector<std::array<uint8_t,2>>& combos)`. -/
def CardRange.ofVector (combos : List (Nat × Nat)) : CardRange :=
  (combos.foldl (fun acc combo => acc.addCombo combo.1 combo.2) CardRange.empty).removeDuplicates

/-- `CardRange::combinations`. -/
def CardRange.combinations (self : CardRange) : List (Nat × Nat) := self.mCombinations

/-- The loop of `cardMaskToStr`, `for (unsigned i=0; mask; mask >>= 1, ++i)`,
with a bound on the number of iterations: a 64-bit mask is zero after 64
shifts (see `cardMaskToStrLoop_fuel`). -/
def cardMaskToStrLoop : Nat → Nat → Nat → List Char → List Char
  | 0, _, _, cards => cards
  | fuel + 1, mask, i, cards =>
    if mask = 0 then cards
    else
      cardMaskToStrLoop fuel (mask >>> 1) (i + 1)
        (if (1 &&& mask) != 0 then cards ++ cardNumberToStr i else cards)

/-- `CardRange::cardMaskToStr`, for a `uint64_t` mask. -/
def cardMaskToStr (mask : Nat) : List Char :=
  cardMaskToStrLoop 64 mask 0 []

/-- The second loop of `getCardMask`: `s[i]` and `s[i + 1]` are read while
`i + 1 < s.size()`, with `i` going up by two, so the text is taken two
characters at a time. A rank and a suit that decode are at most 12 and 3, so
`1ull << card` stays below 64 bits. -/
def getCardMaskLoop : List Char → Nat → Nat
  | c0 :: c1 :: rest, cards =>
    let rank := charToRank c0
    let suit := charToSuit c1
    if rank == NOT_FOUND || suit == NOT_FOUND then cards
    else getCardMaskLoop rest (cards ||| (1 <<< (4 * rank + suit)))
  | _, cards => cards

/-- `CardRange::getCardMask`. -/
def getCardMask (text : List Char) : Nat :=
  getCardMaskLoop (normalize text) 0

/-- The loop of `handMaskToStr` that builds the card mask; `~(i / 16)` is the
complement of a 32-bit `unsigned`. The bound on the iterations is as in
`cardMaskToStrLoop`. -/
def handMaskLoop : Nat → Nat → Nat → Nat → Nat
  | 0, _, _, cardMask => cardMask
  | fuel + 1, mask, i, cardMask =>
    if mask = 0 then cardMask
    else
      handMaskLoop fuel (mask >>> 1) (i + 1)
        (if (1 &&& mask) != 0 then
          let rank := i % 16
          let suit := (4294967295 ^^^ (i / 16)) &&& 3
          let card := 4 * rank + suit
          cardMask ||| (1 <<< card)
        else cardMask)

/-- `CardRange::handMaskToStr`, for a `uint64_t` mask. -/
def handMaskToStr (mask : Nat) : List Char :=
  cardMaskToStr (handMaskLoop 64 mask 0 0)

/-! ## Auxiliary definitions of the development -/

/-- The strict order that `comboLess` decides. -/
def keyLt (x y : Nat × Nat) : Prop :=
  x.1 / 4 < y.1 / 4 ∨ (x.1 / 4 = y.1 / 4 ∧ (x.2 / 4 < y.2 / 4 ∨ (x.2 / 4 = y.2 / 4 ∧
    (x.1 % 4 < y.1 % 4 ∨ (x.1 % 4 = y.1 % 4 ∧ x.2 % 4 < y.2 % 4)))))

/-- The pair that `addCombo c1 c2` appends. -/
def storedPair (c1 c2 : Nat) : Nat × Nat :=
  if c1 / 4 < c2 / 4 ∨ (c1 / 4 = c2 / 4 ∧ c1 % 4 < c2 % 4) then (c2 % 256, c1 % 256)
  else (c1 % 256, c2 % 256)

/-- The list that `addCombos rank1 rank2 suited offsuited` appends. -/
def combosOf (rank1 rank2 : Nat) (suited offsuited : Bool) : List (Nat × Nat) :=
  (CardRange.empty.addCombos rank1 rank2 suited offsuited).mCombinations

/-- The state of an object all of whose `addCombo` calls had two different cards
below `n`: every assertion held, and every stored pair is below `n` and in the
order that `addCombo` produces. -/
def Stored (n : Nat) (r : CardRange) : Prop :=
  r.assertsHeld = true ∧
    ∀ p ∈ r.mCombinations, p.1 < n ∧ p.2 < n ∧
      (p.2 / 4 < p.1 / 4 ∨ (p.1 / 4 = p.2 / 4 ∧ p.2 % 4 < p.1 % 4))

/-- The order the spec words give for the sequence: rank of the first card
descending, then rank of the second card descending, then suit of the first
card ascending, then suit of the second card ascending; `x` may stand before
`y`. -/
def specSequenceOrder (x y : Nat × Nat) : Prop :=
  y.1 / 4 < x.1 / 4 ∨ (x.1 / 4 = y.1 / 4 ∧ (y.2 / 4 < x.2 / 4 ∨ (x.2 / 4 = y.2 / 4 ∧
    (x.1 % 4 < y.1 % 4 ∨ (x.1 % 4 = y.1 % 4 ∧ x.2 % 4 ≤ y.2 % 4)))))

/-- The order of the comparator of `removeDuplicates`, every component
ascending; `x` may stand before `y`. -/
def ascendingSequenceOrder (x y : Nat × Nat) : Prop :=
  x.1 / 4 < y.1 / 4 ∨ (x.1 / 4 = y.1 / 4 ∧ (x.2 / 4 < y.2 / 4 ∨ (x.2 / 4 = y.2 / 4 ∧
    (x.1 % 4 < y.1 % 4 ∨ (x.1 % 4 = y.1 % 4 ∧ x.2 % 4 ≤ y.2 % 4)))))

instance specSequenceOrder_decidable (x y : Nat × Nat) : Decidable (specSequenceOrder x y) := by
  unfold specSequenceOrder; infer_instance

/-- The card mask of a list of cards `(rank, suit)`, in the words of the spec:
bit `4 * rank + suit` is set for each card. -/
def cardMaskOf : List (Nat × Nat) → Nat
  | [] => 0
  | c :: cards => (1 <<< (4 * c.1 + c.2)) ||| cardMaskOf cards

/-- The hand mask of a list of cards `(rank, suit)`, in the words of the spec:
bit `(3 - suit) * 16 + rank` is set for each card. -/
def handMaskOf : List (Nat × Nat) → Nat
  | [] => 0
  | c :: cards => (1 <<< ((3 - c.2) * 16 + c.1)) ||| handMaskOf cards

/-- The well-formed terms of the grammar of the spec, on a normalized text: two
rank characters followed by nothing, `s`, `o`, `+`, `s+` or `o+` (the forms
`RR`, `RRs`, `RRo`, `RR+`, `RRs+`, `RRo+`), or two cards written rank, suit,
rank, suit (the form `CcCc`) that are different cards. -/
def WellFormedTerm (t : List Char) : Prop :=
  (∃ c1 c2 sfx, t = c1 :: c2 :: sfx ∧ charToRank c1 ≠ NOT_FOUND ∧ charToRank c2 ≠ NOT_FOUND ∧
    (sfx = [] ∨ sfx = ['s'] ∨ sfx = ['o'] ∨ sfx = ['+'] ∨ sfx = ['s', '+'] ∨ sfx = ['o', '+'])) ∨
  (∃ c1 d1 c2 d2, t = [c1, d1, c2, d2] ∧ charToRank c1 ≠ NOT_FOUND ∧ charToSuit d1 ≠ NOT_FOUND ∧
    charToRank c2 ≠ NOT_FOUND ∧ charToSuit d2 ≠ NOT_FOUND ∧
    4 * charToRank c1 + charToSuit d1 ≠ 4 * charToRank c2 + charToSuit d2)

/-- Terms written one after the other with a comma between them. -/
def joinTerms : List (List Char) → List Char
  | [] => []
  | t :: [] => t
  | t :: u :: ts => t ++ ',' :: joinTerms (u :: ts)

/-- A text `t'` obtained from `t` by changing the case of letters and by
inserting or deleting characters that are not graphic (blanks, control
characters). -/
inductive SameUpToCaseAndBlanks : List Char → List Char → Prop
  | done : SameUpToCaseAndBlanks [] []
  | keep (a : Char) (l l' : List Char) :
      SameUpToCaseAndBlanks l l' → SameUpToCaseAndBlanks (a :: l) (a :: l')
  | toLower (a : Char) (l l' : List Char) : 65 ≤ a.toNat → a.toNat ≤ 90 →
      SameUpToCaseAndBlanks l l' → SameUpToCaseAndBlanks (a :: l) (tolower a :: l')
  | toUpper (a : Char) (l l' : List Char) : 65 ≤ a.toNat → a.toNat ≤ 90 →
      SameUpToCaseAndBlanks l l' → SameUpToCaseAndBlanks (tolower a :: l) (a :: l')
  | insert (c : Char) (l l' : List Char) : isgraph c = false →
      SameUpToCaseAndBlanks l l' → SameUpToCaseAndBlanks l (c :: l')
  | delete (c : Char) (l l' : List Char) : isgraph c = false →
      SameUpToCaseAndBlanks l l' → SameUpToCaseAndBlanks (c :: l) l'

/-! ## Lemmas -/

theorem shiftRight_two (c : Nat) : c >>> 2 = c / 4 := by
  simp [Nat.shiftRight_eq_div_pow]

theorem and_three (c : Nat) : c &&& 3 = c % 4 :=
  Nat.and_pow_two_sub_one_eq_mod c 2

theorem comboLess_iff (x y : Nat × Nat) : comboLess x y = true ↔ keyLt x y := by
  unfold comboLess keyLt
  simp only [shiftRight_two, and_three, bne_iff_ne, ne_eq, ite_not]
  split_ifs <;> simp <;> omega

theorem comboEq_iff (x y : Nat × Nat) : comboEq x y = true ↔ x = y := by
  unfold comboEq
  simp [Prod.ext_iff]

theorem keyLt_irrefl (x : Nat × Nat) : ¬ keyLt x x := by
  unfold keyLt; omega

theorem keyLt_trans {x y z : Nat × Nat} (h1 : keyLt x y) (h2 : keyLt y z) : keyLt x z := by
  unfold keyLt at *; omega

theorem keyLt_of_lt_of_not_lt {x y z : Nat × Nat} (h1 : keyLt x y) (h2 : ¬ keyLt z y) :
    keyLt x z := by
  unfold keyLt at *; omega

theorem keyLt_of_not_lt_of_lt {x y z : Nat × Nat} (h1 : ¬ keyLt y x) (h2 : keyLt y z) :
    keyLt x z := by
  unfold keyLt at *; omega

theorem not_keyLt_trans {x y z : Nat × Nat} (h1 : ¬ keyLt y x) (h2 : ¬ keyLt z y) :
    ¬ keyLt z x := by
  unfold keyLt at *; omega

theorem eq_of_not_keyLt {x y : Nat × Nat} (h1 : ¬ keyLt x y) (h2 : ¬ keyLt y x) : x = y := by
  unfold keyLt at *
  apply Prod.ext <;> omega

/-! ### `std::sort` -/

theorem sortInsert_perm {α : Type} (comp : α → α → Bool) (a : α) (l : List α) :
    (sortInsert comp a l).Perm (a :: l) := by
  induction l with
  | nil => exact List.Perm.refl _
  | cons b l ih =>
    unfold sortInsert
    split
    · exact List.Perm.refl _
    · exact ((List.Perm.cons b ih).trans (List.Perm.swap a b l))

theorem sort_perm {α : Type} (comp : α → α → Bool) (l : List α) : (sort comp l).Perm l := by
  induction l with
  | nil => exact List.Perm.refl _
  | cons a l ih =>
    unfold sort
    exact (sortInsert_perm comp a _).trans (List.Perm.cons a ih)

theorem mem_sort {α : Type} (comp : α → α → Bool) (l : List α) (x : α) :
    x ∈ sort comp l ↔ x ∈ l :=
  (sort_perm comp l).mem_iff

theorem sortInsert_sorted (a : Nat × Nat) (l : List (Nat × Nat))
    (h : l.Pairwise (fun x y => ¬ keyLt y x)) :
    (sortInsert comboLess a l).Pairwise (fun x y => ¬ keyLt y x) := by
  induction l with
  | nil => simp [sortInsert]
  | cons b l ih =>
    have hb := List.pairwise_cons.1 h
    unfold sortInsert
    split
    · rename_i hab
      have hab := (comboLess_iff a b).1 hab
      refine List.pairwise_cons.2 ⟨?_, h⟩
      intro y hy hya
      rcases List.mem_cons.1 hy with rfl | hy
      · exact keyLt_irrefl _ (keyLt_trans hab hya)
      · exact hb.1 y hy (keyLt_trans hya hab)
    · rename_i hab
      have hab : ¬ keyLt a b := fun h => hab ((comboLess_iff a b).2 h)
      refine List.pairwise_cons.2 ⟨?_, ih hb.2⟩
      intro y hy
      rcases List.mem_cons.1 ((sortInsert_perm comboLess a l).mem_iff.1 hy) with rfl | hy
      · exact hab
      · exact hb.1 y hy

theorem sort_sorted (l : List (Nat × Nat)) :
    (sort comboLess l).Pairwise (fun x y => ¬ keyLt y x) := by
  induction l with
  | nil => simp [sort]
  | cons a l ih => exact sortInsert_sorted a _ ih

/-- A list that is a rearrangement of `l` and is sorted for `comboLess` is the
list `sort comboLess l`: the outcome of `std::sort` does not depend on the
algorithm. -/
theorem sort_unique_result (l s : List (Nat × Nat)) (hp : s.Perm l)
    (hs : s.Pairwise (fun x y => comboLess y x = false)) : s = sort comboLess l := by
  have hs2 : s.Pairwise (fun x y => ¬ keyLt y x) :=
    hs.imp (fun {x y} h hk => by
      have := (comboLess_iff y x).2 hk
      simp [h] at this)
  have hperm : s.Perm (sort comboLess l) := hp.trans (sort_perm comboLess l).symm
  have key : ∀ (s t : List (Nat × Nat)), s.Perm t → s.Pairwise (fun x y => ¬ keyLt y x) →
      t.Pairwise (fun x y => ¬ keyLt y x) → s = t := by
    intro s
    induction s with
    | nil => intro t hp _ _; exact (List.Perm.nil_eq hp)
    | cons a s ih =>
      intro t hp hs ht
      cases t with
      | nil => exact absurd hp.length_eq (by simp)
      | cons b t =>
        have hs1 := List.pairwise_cons.1 hs
        have ht1 := List.pairwise_cons.1 ht
        have hab : a = b := by
          have ha : a ∈ b :: t := hp.mem_iff.1 (List.mem_cons_self a s)
          have hb : b ∈ a :: s := hp.mem_iff.2 (List.mem_cons_self b t)
          rcases List.mem_cons.1 ha with h | ha
          · exact h
          rcases List.mem_cons.1 hb with h | hb
          · exact h.symm
          exact eq_of_not_keyLt (ht1.1 a ha) (hs1.1 b hb)
        subst hab
        rw [ih t (List.Perm.cons_inv hp) hs1.2 ht1.2]
  exact key s _ hperm hs2 (sort_sorted l)

/-! ### `std::unique` -/

theorem mem_uniqueFrom (k : Nat × Nat) (l : List (Nat × Nat)) (x : Nat × Nat) :
    x ∈ uniqueFrom comboEq k l ↔ x = k ∨ x ∈ l := by
  induction l generalizing k with
  | nil => simp [uniqueFrom]
  | cons b l ih =>
    unfold uniqueFrom
    split
    · rename_i h
      have h := (comboEq_iff k b).1 h
      subst h
      rw [ih]; simp
    · simp [ih]

theorem mem_unique (l : List (Nat × Nat)) (x : Nat × Nat) :
    x ∈ unique comboEq l ↔ x ∈ l := by
  cases l with
  | nil => simp [unique]
  | cons a l => simp [unique, mem_uniqueFrom]

theorem uniqueFrom_sorted (k : Nat × Nat) (l : List (Nat × Nat))
    (h : (k :: l).Pairwise (fun x y => ¬ keyLt y x)) :
    (uniqueFrom comboEq k l).Pairwise keyLt := by
  induction l generalizing k with
  | nil => simp [uniqueFrom]
  | cons b l ih =>
    have h1 := List.pairwise_cons.1 h
    have h2 := List.pairwise_cons.1 h1.2
    unfold uniqueFrom
    split
    · rename_i hkb
      have hkb := (comboEq_iff k b).1 hkb
      subst hkb
      exact ih k h1.2
    · rename_i hkb
      have hne : k ≠ b := fun e => hkb ((comboEq_iff k b).2 e)
      have hlt : keyLt k b := by
        by_contra hn
        exact hne (eq_of_not_keyLt hn (h1.1 b (List.mem_cons_self b l)))
      refine List.pairwise_cons.2 ⟨?_, ih b h1.2⟩
      intro y hy
      rcases (mem_uniqueFrom b l y).1 hy with rfl | hy
      · exact hlt
      · exact keyLt_of_lt_of_not_lt hlt (h2.1 y hy)

theorem unique_sorted (l : List (Nat × Nat)) (h : l.Pairwise (fun x y => ¬ keyLt y x)) :
    (unique comboEq l).Pairwise keyLt := by
  cases l with
  | nil => simp [unique]
  | cons a l => exact uniqueFrom_sorted a l h

theorem uniqueFrom_of_nodup (k : Nat × Nat) (l : List (Nat × Nat)) (h : (k :: l).Nodup) :
    uniqueFrom comboEq k l = k :: l := by
  induction l generalizing k with
  | nil => simp [uniqueFrom]
  | cons b l ih =>
    have h1 := List.nodup_cons.1 h
    unfold uniqueFrom
    split
    · rename_i hkb
      have hkb := (comboEq_iff k b).1 hkb
      exact absurd (hkb ▸ List.mem_cons_self b l) h1.1
    · rw [ih b h1.2]

theorem unique_of_nodup (l : List (Nat × Nat)) (h : l.Nodup) : unique comboEq l = l := by
  cases l with
  | nil => simp [unique]
  | cons a l => exact uniqueFrom_of_nodup a l h

/-! ### `removeDuplicates` -/

theorem mem_removeDuplicates (r : CardRange) (x : Nat × Nat) :
    x ∈ r.removeDuplicates.mCombinations ↔ x ∈ r.mCombinations := by
  simp [CardRange.removeDuplicates, mem_unique, mem_sort]

theorem removeDuplicates_sorted (r : CardRange) :
    r.removeDuplicates.mCombinations.Pairwise keyLt :=
  unique_sorted _ (sort_sorted _)

theorem removeDuplicates_nodup (r : CardRange) : r.removeDuplicates.mCombinations.Nodup :=
  (removeDuplicates_sorted r).imp (fun h e => by subst e; exact keyLt_irrefl _ h)

theorem removeDuplicates_perm (r : CardRange) (h : r.mCombinations.Nodup) :
    r.removeDuplicates.mCombinations.Perm r.mCombinations := by
  have hp := sort_perm comboLess r.mCombinations
  have : r.removeDuplicates.mCombinations = sort comboLess r.mCombinations :=
    unique_of_nodup _ (hp.nodup_iff.2 h)
  rw [this]; exact hp

theorem removeDuplicates_assertsHeld (r : CardRange) :
    r.removeDuplicates.assertsHeld = r.assertsHeld := rfl

theorem addCombo_list (r : CardRange) (c1 c2 : Nat) :
    (r.addCombo c1 c2).mCombinations = r.mCombinations ++ [storedPair c1 c2] := by
  unfold CardRange.addCombo storedPair
  simp only [shiftRight_two, and_three, Bool.or_eq_true, Bool.and_eq_true, decide_eq_true_eq,
    beq_iff_eq]
  split_ifs <;> rfl

theorem addCombo_assertsHeld (r : CardRange) (c1 c2 : Nat) :
    (r.addCombo c1 c2).assertsHeld = (r.assertsHeld && (c1 != c2)) := rfl

theorem storedPair_rank (r1 r2 s1 s2 : Nat) (h1 : r1 < 64) (h2 : r2 < 64) (hs1 : s1 < 4) (hs2 : s2 < 4) :
    storedPair (4 * r1 + s1) (4 * r2 + s2) =
      if r1 < r2 ∨ (r1 = r2 ∧ s1 < s2) then (4 * r2 + s2, 4 * r1 + s1)
      else (4 * r1 + s1, 4 * r2 + s2) := by
  unfold storedPair
  have e1 : (4 * r1 + s1) / 4 = r1 := by omega
  have e2 : (4 * r2 + s2) / 4 = r2 := by omega
  have e3 : (4 * r1 + s1) % 4 = s1 := by omega
  have e4 : (4 * r2 + s2) % 4 = s2 := by omega
  have e5 : (4 * r1 + s1) % 256 = 4 * r1 + s1 := by omega
  have e6 : (4 * r2 + s2) % 256 = 4 * r2 + s2 := by omega
  rw [e1, e2, e3, e4, e5, e6]

theorem addCombos_list (r : CardRange) (r1 r2 : Nat) (su off : Bool) :
    (r.addCombos r1 r2 su off).mCombinations = r.mCombinations ++ combosOf r1 r2 su off := by
  unfold combosOf CardRange.addCombos
  cases su <;> cases off <;> by_cases h : r1 = r2 <;>
    simp [h, List.range, List.range.loop, List.range', addCombo_list, CardRange.empty]

theorem storedPair_of_lt {c1 c2 : Nat} (h : c1 / 4 < c2 / 4) (h2 : c2 < 256) :
    storedPair c1 c2 = (c2, c1) := by
  unfold storedPair
  rw [if_pos (Or.inl h)]
  apply Prod.ext <;> simp <;> omega

theorem storedPair_of_gt {c1 c2 : Nat} (h : c2 / 4 < c1 / 4) (h1 : c1 < 256) :
    storedPair c1 c2 = (c1, c2) := by
  unfold storedPair
  rw [if_neg (by omega)]
  apply Prod.ext <;> simp <;> omega

theorem storedPair_of_eq_lt {c1 c2 : Nat} (h : c1 / 4 = c2 / 4) (hs : c1 % 4 < c2 % 4)
    (h2 : c2 < 256) : storedPair c1 c2 = (c2, c1) := by
  unfold storedPair
  rw [if_pos (Or.inr ⟨h, hs⟩)]
  apply Prod.ext <;> simp <;> omega

theorem storedPair_of_eq_ge {c1 c2 : Nat} (h : c1 / 4 = c2 / 4) (hs : c2 % 4 ≤ c1 % 4)
    (h1 : c1 < 256) : storedPair c1 c2 = (c1, c2) := by
  unfold storedPair
  rw [if_neg (by omega)]
  apply Prod.ext <;> simp <;> omega

theorem combosOf_sound_lt (r1 r2 : Nat) (su off : Bool) (_h1 : r1 < 13) (h2 : r2 < 13)
    (h : r1 < r2) (a b : Nat) (hm : (a, b) ∈ combosOf r1 r2 su off) :
      (a < 52 ∧ b < 52 ∧ (b / 4 < a / 4 ∨ (a / 4 = b / 4 ∧ b % 4 < a % 4)) ∧
        ((a / 4 = r1 ∧ b / 4 = r2) ∨ (a / 4 = r2 ∧ b / 4 = r1)) ∧
        ((su = true ∧ a % 4 = b % 4) ∨ (off = true ∧ a % 4 ≠ b % 4))) := by
  unfold combosOf CardRange.addCombos at hm
  have hne : r1 ≠ r2 := by omega
  revert hm
  cases su <;> cases off <;>
  simp (disch := omega) [hne, List.range, List.range.loop, List.range', addCombo_list,
    CardRange.empty, storedPair_of_lt]
  all_goals omega

theorem combosOf_sound_eq (r1 r2 : Nat) (su off : Bool) (h1 : r1 < 13) (h2 : r2 < 13)
    (h : r1 = r2) (a b : Nat) (hm : (a, b) ∈ combosOf r1 r2 su off) :
      (a < 52 ∧ b < 52 ∧ (b / 4 < a / 4 ∨ (a / 4 = b / 4 ∧ b % 4 < a % 4)) ∧
        ((a / 4 = r1 ∧ b / 4 = r2) ∨ (a / 4 = r2 ∧ b / 4 = r1)) ∧
        ((su = true ∧ a % 4 = b % 4) ∨ (off = true ∧ a % 4 ≠ b % 4))) := by
  unfold combosOf CardRange.addCombos at hm
  subst h
  revert hm
  cases su <;> cases off <;>
  simp (disch := omega) [List.range, List.range.loop, List.range', addCombo_list,
    CardRange.empty, storedPair_of_eq_lt]
  all_goals omega

theorem combosOf_sound_gt (r1 r2 : Nat) (su off : Bool) (h1 : r1 < 13) (h2 : r2 < 13)
    (h : r2 < r1) (a b : Nat) (hm : (a, b) ∈ combosOf r1 r2 su off) :
      (a < 52 ∧ b < 52 ∧ (b / 4 < a / 4 ∨ (a / 4 = b / 4 ∧ b % 4 < a % 4)) ∧
        ((a / 4 = r1 ∧ b / 4 = r2) ∨ (a / 4 = r2 ∧ b / 4 = r1)) ∧
        ((su = true ∧ a % 4 = b % 4) ∨ (off = true ∧ a % 4 ≠ b % 4))) := by
  unfold combosOf CardRange.addCombos at hm
  have hne : r1 ≠ r2 := by omega
  revert hm
  cases su <;> cases off <;>
  simp (disch := omega) [hne, List.range, List.range.loop, List.range', addCombo_list,
    CardRange.empty, storedPair_of_gt]
  all_goals omega

theorem combosOf_complete_lt (r1 r2 : Nat) (su off : Bool) (h1 : r1 < 13) (h2 : r2 < 13)
    (h : r1 < r2) (a b : Nat)
    (hp : (a < 52 ∧ b < 52 ∧ (b / 4 < a / 4 ∨ (a / 4 = b / 4 ∧ b % 4 < a % 4)) ∧
        ((a / 4 = r1 ∧ b / 4 = r2) ∨ (a / 4 = r2 ∧ b / 4 = r1)) ∧
        ((su = true ∧ a % 4 = b % 4) ∨ (off = true ∧ a % 4 ≠ b % 4)))) :
    (a, b) ∈ combosOf r1 r2 su off := by
  unfold combosOf CardRange.addCombos
  obtain ⟨ha, hb, hc, hr, hs⟩ := hp
  obtain ⟨ra, sa, rfl, hsa⟩ : ∃ ra sa, a = 4 * ra + sa ∧ sa < 4 :=
    ⟨a / 4, a % 4, by omega, by omega⟩
  obtain ⟨rb, sb, rfl, hsb⟩ : ∃ rb sb, b = 4 * rb + sb ∧ sb < 4 :=
    ⟨b / 4, b % 4, by omega, by omega⟩
  have e1 : (4 * ra + sa) / 4 = ra := by omega
  have e2 : (4 * rb + sb) / 4 = rb := by omega
  have e3 : (4 * ra + sa) % 4 = sa := by omega
  have e4 : (4 * rb + sb) % 4 = sb := by omega
  rw [e1, e2] at hr hc
  rw [e3, e4] at hs hc
  have hne : r1 ≠ r2 := by omega
  have hra : ra = r2 := by omega
  have hrb : rb = r1 := by omega
  subst hra hrb
  cases su <;> cases off <;>
  simp (disch := omega) [hne, List.range, List.range.loop, List.range', addCombo_list,
    CardRange.empty, storedPair_of_lt]
  all_goals (interval_cases sa <;> interval_cases sb <;> simp_all)

theorem combosOf_complete_eq (r1 r2 : Nat) (su off : Bool) (h1 : r1 < 13) (h2 : r2 < 13)
    (h : r1 = r2) (a b : Nat)
    (hp : (a < 52 ∧ b < 52 ∧ (b / 4 < a / 4 ∨ (a / 4 = b / 4 ∧ b % 4 < a % 4)) ∧
        ((a / 4 = r1 ∧ b / 4 = r2) ∨ (a / 4 = r2 ∧ b / 4 = r1)) ∧
        ((su = true ∧ a % 4 = b % 4) ∨ (off = true ∧ a % 4 ≠ b % 4)))) :
    (a, b) ∈ combosOf r1 r2 su off := by
  unfold combosOf CardRange.addCombos
  obtain ⟨ha, hb, hc, hr, hs⟩ := hp
  obtain ⟨ra, sa, rfl, hsa⟩ : ∃ ra sa, a = 4 * ra + sa ∧ sa < 4 :=
    ⟨a / 4, a % 4, by omega, by omega⟩
  obtain ⟨rb, sb, rfl, hsb⟩ : ∃ rb sb, b = 4 * rb + sb ∧ sb < 4 :=
    ⟨b / 4, b % 4, by omega, by omega⟩
  have e1 : (4 * ra + sa) / 4 = ra := by omega
  have e2 : (4 * rb + sb) / 4 = rb := by omega
  have e3 : (4 * ra + sa) % 4 = sa := by omega
  have e4 : (4 * rb + sb) % 4 = sb := by omega
  rw [e1, e2] at hr hc
  rw [e3, e4] at hs hc
  subst h
  have hra : ra = r1 := by omega
  have hrb : rb = r1 := by omega
  subst hra hrb
  cases su <;> cases off <;>
  simp (disch := omega) [List.range, List.range.loop, List.range', addCombo_list,
    CardRange.empty, storedPair_of_eq_lt]
  all_goals (interval_cases sa <;> interval_cases sb <;> simp_all)

theorem combosOf_complete_gt (r1 r2 : Nat) (su off : Bool) (h1 : r1 < 13) (h2 : r2 < 13)
    (h : r2 < r1) (a b : Nat)
    (hp : (a < 52 ∧ b < 52 ∧ (b / 4 < a / 4 ∨ (a / 4 = b / 4 ∧ b % 4 < a % 4)) ∧
        ((a / 4 = r1 ∧ b / 4 = r2) ∨ (a / 4 = r2 ∧ b / 4 = r1)) ∧
        ((su = true ∧ a % 4 = b % 4) ∨ (off = true ∧ a % 4 ≠ b % 4)))) :
    (a, b) ∈ combosOf r1 r2 su off := by
  unfold combosOf CardRange.addCombos
  obtain ⟨ha, hb, hc, hr, hs⟩ := hp
  obtain ⟨ra, sa, rfl, hsa⟩ : ∃ ra sa, a = 4 * ra + sa ∧ sa < 4 :=
    ⟨a / 4, a % 4, by omega, by omega⟩
  obtain ⟨rb, sb, rfl, hsb⟩ : ∃ rb sb, b = 4 * rb + sb ∧ sb < 4 :=
    ⟨b / 4, b % 4, by omega, by omega⟩
  have e1 : (4 * ra + sa) / 4 = ra := by omega
  have e2 : (4 * rb + sb) / 4 = rb := by omega
  have e3 : (4 * ra + sa) % 4 = sa := by omega
  have e4 : (4 * rb + sb) % 4 = sb := by omega
  rw [e1, e2] at hr hc
  rw [e3, e4] at hs hc
  have hne : r1 ≠ r2 := by omega
  have hra : ra = r1 := by omega
  have hrb : rb = r2 := by omega
  subst hra hrb
  cases su <;> cases off <;>
  simp (disch := omega) [hne, List.range, List.range.loop, List.range', addCombo_list,
    CardRange.empty, storedPair_of_gt]
  all_goals (interval_cases sa <;> interval_cases sb <;> simp_all)

/-- What `addCombos` appends, for ranks below 13: the canonical pairs of the two
ranks, of one suit when `suited`, of two suits when `offsuited`. -/
theorem mem_combosOf (r1 r2 : Nat) (su off : Bool) (h1 : r1 < 13) (h2 : r2 < 13) (a b : Nat) :
    (a, b) ∈ combosOf r1 r2 su off ↔
      (a < 52 ∧ b < 52 ∧ (b / 4 < a / 4 ∨ (a / 4 = b / 4 ∧ b % 4 < a % 4)) ∧
        ((a / 4 = r1 ∧ b / 4 = r2) ∨ (a / 4 = r2 ∧ b / 4 = r1)) ∧
        ((su = true ∧ a % 4 = b % 4) ∨ (off = true ∧ a % 4 ≠ b % 4))) := by
  rcases Nat.lt_trichotomy r1 r2 with h | h | h
  · exact ⟨combosOf_sound_lt r1 r2 su off h1 h2 h a b,
      combosOf_complete_lt r1 r2 su off h1 h2 h a b⟩
  · exact ⟨combosOf_sound_eq r1 r2 su off h1 h2 h a b,
      combosOf_complete_eq r1 r2 su off h1 h2 h a b⟩
  · exact ⟨combosOf_sound_gt r1 r2 su off h1 h2 h a b,
      combosOf_complete_gt r1 r2 su off h1 h2 h a b⟩

/-! ### The character tables -/

theorem charToRank_cases (c : Char) :
    charToRank c = NOT_FOUND ∨
      (c ∈ ['a', 'k', 'q', 'j', 't', '9', '8', '7', '6', '5', '4', '3', '2',
        'A', 'K', 'Q', 'J', 'T']) := by
  by_cases h : c ∈ ['a', 'k', 'q', 'j', 't', '9', '8', '7', '6', '5', '4', '3', '2',
      'A', 'K', 'Q', 'J', 'T']
  · exact Or.inr h
  · left
    simp only [List.mem_cons, List.mem_singleton, List.not_mem_nil, or_false, not_or] at h
    simp only [charToRank, h, if_false]

theorem charToSuit_cases (c : Char) :
    charToSuit c = NOT_FOUND ∨ (c ∈ ['c', 'd', 'h', 's']) := by
  by_cases h : c ∈ ['c', 'd', 'h', 's']
  · exact Or.inr h
  · left
    simp only [List.mem_cons, List.mem_singleton, List.not_mem_nil, or_false, not_or] at h
    simp only [charToSuit, h, if_false]

theorem charToRank_lt (c : Char) (h : charToRank c ≠ NOT_FOUND) : charToRank c < 13 := by
  rcases charToRank_cases c with h' | h'
  · exact absurd h' h
  · simp only [List.mem_cons, List.mem_singleton, List.not_mem_nil, or_false] at h'
    rcases h' with rfl | rfl | rfl | rfl | rfl | rfl | rfl | rfl | rfl | rfl | rfl | rfl | rfl |
      rfl | rfl | rfl | rfl | rfl <;> decide

theorem charToSuit_lt (c : Char) (h : charToSuit c ≠ NOT_FOUND) : charToSuit c < 4 := by
  rcases charToSuit_cases c with h' | h'
  · exact absurd h' h
  · simp only [List.mem_cons, List.mem_singleton, List.not_mem_nil, or_false] at h'
    rcases h' with rfl | rfl | rfl | rfl <;> decide

/-- A rank character is graphic, keeps its rank when lowercased, and is neither a
suit character nor one of the characters `o`, `s`, `+`, `,`. -/
theorem rankChar_facts (c : Char) (h : charToRank c ≠ NOT_FOUND) :
    isgraph c = true ∧ charToRank (tolower c) = charToRank c ∧
      charToSuit (tolower c) = NOT_FOUND ∧ charToSuit c = NOT_FOUND := by
  rcases charToRank_cases c with h' | h'
  · exact absurd h' h
  · simp only [List.mem_cons, List.mem_singleton, List.not_mem_nil, or_false] at h'
    rcases h' with rfl | rfl | rfl | rfl | rfl | rfl | rfl | rfl | rfl | rfl | rfl | rfl | rfl |
      rfl | rfl | rfl | rfl | rfl <;> decide

/-- A suit character is graphic and lowercase, and is not a rank character. -/
theorem suitChar_facts (c : Char) (h : charToSuit c ≠ NOT_FOUND) :
    isgraph c = true ∧ tolower c = c ∧ charToRank c = NOT_FOUND := by
  rcases charToSuit_cases c with h' | h'
  · exact absurd h' h
  · simp only [List.mem_cons, List.mem_singleton, List.not_mem_nil, or_false] at h'
    rcases h' with rfl | rfl | rfl | rfl <;> decide

theorem rankToChar_facts :
    ∀ r < 13, charToRank (rankToChar r) = r := by decide

theorem suitToChar_facts :
    ∀ s < 4, charToSuit (suitToChar s) = s := by decide

/-! ### The parser primitives -/

theorem parseRank_nil : parseRank [] = (false, [], NOT_FOUND) := by decide

theorem parseSuit_nil : parseSuit [] = (false, [], NOT_FOUND) := by decide

theorem parseRank_cons (c : Char) (p : List Char) :
    parseRank (c :: p) =
      if charToRank c = NOT_FOUND then (false, c :: p, NOT_FOUND) else (true, p, charToRank c) := by
  unfold parseRank deref
  by_cases h : charToRank c = NOT_FOUND <;> simp [h]

theorem parseSuit_cons (c : Char) (p : List Char) :
    parseSuit (c :: p) =
      if charToSuit c = NOT_FOUND then (false, c :: p, NOT_FOUND) else (true, p, charToSuit c) := by
  unfold parseSuit deref
  by_cases h : charToSuit c = NOT_FOUND <;> simp [h]

theorem parseChar_nil (c : Char) (h : c ≠ '\x00') : parseChar [] c = (false, []) := by
  unfold parseChar deref
  simp [Ne.symm h]

theorem parseChar_cons (d : Char) (p : List Char) (c : Char) :
    parseChar (d :: p) c = if d = c then (true, p) else (false, d :: p) := by
  unfold parseChar deref
  by_cases h : d = c <;> simp [h]

theorem parseChar_length (p : List Char) (c : Char) : (parseChar p c).2.length ≤ p.length := by
  unfold parseChar
  split <;> simp

theorem parseRank_ok (p : List Char) (h : (parseRank p).1 = true) :
    (parseRank p).2.2 < 13 ∧ (parseRank p).2.1.length + 1 = p.length := by
  cases p with
  | nil => simp [parseRank_nil] at h
  | cons c p =>
    rw [parseRank_cons] at h ⊢
    by_cases hc : charToRank c = NOT_FOUND
    · simp [hc] at h
    · simp [hc, charToRank_lt c hc]

theorem parseSuit_ok (p : List Char) (h : (parseSuit p).1 = true) :
    (parseSuit p).2.2 < 4 ∧ (parseSuit p).2.1.length + 1 = p.length := by
  cases p with
  | nil => simp [parseSuit_nil] at h
  | cons c p =>
    rw [parseSuit_cons] at h ⊢
    by_cases hc : charToSuit c = NOT_FOUND
    · simp [hc] at h
    · simp [hc, charToSuit_lt c hc]

theorem parseSuit_length (p : List Char) : (parseSuit p).2.1.length ≤ p.length := by
  cases p with
  | nil => simp [parseSuit_nil]
  | cons c p =>
    rw [parseSuit_cons]
    split <;> simp

/-- What a call of `parseHand` can do to the object: nothing, one `addCombo` of
two different cards below 52, or one `addCombos` / `addCombosPlus` of two ranks
below 13. -/
theorem parseHand_shape (self : CardRange) (p : List Char) :
    (self.parseHand p).2.2 = self ∨
    (∃ c1 c2, c1 < 52 ∧ c2 < 52 ∧ c1 ≠ c2 ∧ (self.parseHand p).2.2 = self.addCombo c1 c2) ∨
    (∃ r1 r2 su off, r1 < 13 ∧ r2 < 13 ∧
      ((self.parseHand p).2.2 = self.addCombos r1 r2 su off ∨
        (self.parseHand p).2.2 = self.addCombosPlus r1 r2 su off)) := by
  unfold CardRange.parseHand
  simp only []
  have hA := parseRank_ok p
  generalize parseRank p = a at *
  have hB := parseSuit_ok a.2.1
  generalize parseSuit a.2.1 = b at *
  have hC := parseRank_ok b.2.1
  generalize parseRank b.2.1 = c at *
  have hD := parseSuit_ok c.2.1
  generalize parseSuit c.2.1 = d at *
  generalize parseChar c.2.1 'o' = o at *
  generalize parseChar o.2 's' = s at *
  obtain ⟨a1, a2, a3⟩ := a
  obtain ⟨b1, b2, b3⟩ := b
  obtain ⟨c1, c2, c3⟩ := c
  obtain ⟨d1, d2, d3⟩ := d
  obtain ⟨o1, o2⟩ := o
  obtain ⟨s1, s2⟩ := s
  simp only [] at *
  cases a1
  · left; simp
  cases c1
  · left; simp
  have ra := (hA rfl).1
  have rc := (hC rfl).1
  cases b1
  · right; right
    simp only [Bool.not_true, Bool.false_eq_true, if_false]
    generalize (parseChar (if o1 = true then (false, o2) else (s1, s2)).2 '+') = q
    obtain ⟨q1, q2⟩ := q
    cases q1
    · exact ⟨_, _, _, _, ra, rc, Or.inl rfl⟩
    · exact ⟨_, _, _, _, ra, rc, Or.inr rfl⟩
  · cases d1
    · left; simp
    have sb := (hB rfl).1
    have sd := (hD rfl).1
    by_cases he : 4 * a3 + b3 = 4 * c3 + d3
    · left; simp [he]
    · right; left
      exact ⟨4 * a3 + b3, 4 * c3 + d3, by omega, by omega, he, by simp [he]⟩

/-- A successful `parseHand` moves the cursor forward by at least two characters. -/
theorem parseHand_length (self : CardRange) (p : List Char) (h : (self.parseHand p).1 = true) :
    (self.parseHand p).2.1.length + 2 ≤ p.length := by
  unfold CardRange.parseHand at h ⊢
  simp only [] at h ⊢
  have hA := parseRank_ok p
  generalize parseRank p = a at *
  have hB := parseSuit_ok a.2.1
  have lB := parseSuit_length a.2.1
  generalize parseSuit a.2.1 = b at *
  have hC := parseRank_ok b.2.1
  generalize parseRank b.2.1 = c at *
  have hD := parseSuit_ok c.2.1
  generalize parseSuit c.2.1 = d at *
  have lO := parseChar_length c.2.1 'o'
  generalize parseChar c.2.1 'o' = o at *
  have lS := parseChar_length o.2 's'
  generalize parseChar o.2 's' = s at *
  have lP := parseChar_length (if o.1 = true then (false, o.2) else s).2 '+'
  generalize parseChar (if o.1 = true then (false, o.2) else s).2 '+' = q at *
  obtain ⟨a1, a2, a3⟩ := a
  obtain ⟨b1, b2, b3⟩ := b
  obtain ⟨c1, c2, c3⟩ := c
  obtain ⟨d1, d2, d3⟩ := d
  obtain ⟨o1, o2⟩ := o
  obtain ⟨s1, s2⟩ := s
  obtain ⟨q1, q2⟩ := q
  simp only [] at *
  cases a1
  · simp at h
  cases c1
  · simp at h
  have la := (hA rfl).2
  have lc := (hC rfl).2
  cases b1
  · cases o1 <;> cases q1 <;> simp at lP ⊢ <;> omega
  · cases d1
    · simp at h
    have ld := (hD rfl).2
    by_cases he : 4 * a3 + b3 = 4 * c3 + d3
    · simp [he] at h
    · simp [he]; omega

/-! ### The fuel of `parseLoop` -/

/-- The result of `parseLoop` is the same for every bound above the length of the
text: the bound `s.length + 1` of the constructor is never the reason the loop
stops. -/
theorem parseLoop_fuel (n m : Nat) (self : CardRange) (p : List Char)
    (hn : p.length < n) (hm : p.length < m) :
    CardRange.parseLoop n self p = CardRange.parseLoop m self p := by
  induction n generalizing m self p with
  | zero => omega
  | succ n ih =>
    cases m with
    | zero => omega
    | succ m =>
      unfold CardRange.parseLoop
      simp only []
      by_cases h : (self.parseHand p).1 = true
      · have hl := parseHand_length self p h
        have hc := parseChar_length (self.parseHand p).2.1 ','
        simp only [h, if_true]
        split
        · exact ih m _ _ (by omega) (by omega)
        · rfl
      · simp [h]

/-! ### The invariant of the working list -/

theorem foldl_preserves {α β : Type} (P : β → Prop) (f : β → α → β) (l : List α)
    (hf : ∀ b a, a ∈ l → P b → P (f b a)) (b : β) (hb : P b) : P (l.foldl f b) := by
  induction l generalizing b with
  | nil => exact hb
  | cons a l ih =>
    exact ih (fun b x hx => hf b x (List.mem_cons_of_mem a hx)) _
      (hf b a (List.mem_cons_self a l) hb)

theorem Stored.empty (n : Nat) : Stored n CardRange.empty := by
  simp [Stored, CardRange.empty]

theorem Stored.addCombo {n : Nat} {r : CardRange} (hr : Stored n r) (hn : n ≤ 256)
    {c1 c2 : Nat} (h1 : c1 < n) (h2 : c2 < n) (hne : c1 ≠ c2) : Stored n (r.addCombo c1 c2) := by
  refine ⟨?_, ?_⟩
  · simp [addCombo_assertsHeld, hr.1, hne]
  · intro p hp
    rw [addCombo_list] at hp
    rcases List.mem_append.1 hp with hp | hp
    · exact hr.2 p hp
    · rw [List.mem_singleton] at hp
      subst hp
      unfold storedPair
      split <;> simp only [] <;> omega

theorem Stored.addCombos {r : CardRange} (hr : Stored 52 r) {r1 r2 : Nat} (h1 : r1 < 13)
    (h2 : r2 < 13) (su off : Bool) : Stored 52 (r.addCombos r1 r2 su off) := by
  unfold CardRange.addCombos
  simp only []
  have hs : Stored 52 (if (su && r1 != r2) = true then
      (List.range 4).foldl
        (fun acc suit => acc.addCombo (4 * r1 + suit) (4 * r2 + suit)) r else r) := by
    split
    · rename_i hc
      have hne : r1 ≠ r2 := by
        simp only [Bool.and_eq_true, bne_iff_ne, ne_eq] at hc
        exact hc.2
      refine foldl_preserves (Stored 52) _ _ ?_ r hr
      intro b s hs hb
      have := List.mem_range.1 hs
      exact hb.addCombo (by omega) (by omega) (by omega) (by omega)
    · exact hr
  split
  · refine foldl_preserves (Stored 52) _ _ ?_ _ hs
    intro b s1 hs1 hb
    have hs1 := List.mem_range.1 hs1
    refine foldl_preserves (Stored 52) _ _ ?_ _ hb
    intro b s2 hs2 hb
    have hs2 := List.mem_range'_1.1 hs2
    have hb1 : Stored 52 (b.addCombo (4 * r1 + s1) (4 * r2 + s2)) :=
      hb.addCombo (by omega) (by omega) (by omega) (by omega)
    split
    · exact hb1.addCombo (by omega) (by omega) (by omega) (by omega)
    · exact hb1
  · exact hs

theorem Stored.addCombosPlus {r : CardRange} (hr : Stored 52 r) {r1 r2 : Nat} (h1 : r1 < 13)
    (h2 : r2 < 13) (su off : Bool) : Stored 52 (r.addCombosPlus r1 r2 su off) := by
  unfold CardRange.addCombosPlus
  split
  · refine foldl_preserves (Stored 52) _ _ ?_ r hr
    intro b q hq hb
    have := List.mem_range'_1.1 hq
    exact hb.addCombos (by omega) (by omega) su off
  · simp only []
    refine foldl_preserves (Stored 52) _ _ ?_ r hr
    intro b q hq hb
    have := List.mem_range'_1.1 hq
    split at this <;> exact hb.addCombos (by split <;> omega) (by omega) su off

theorem Stored.addAll {r : CardRange} (hr : Stored 52 r) : Stored 52 r.addAll := by
  unfold CardRange.addAll CARD_COUNT
  refine foldl_preserves (Stored 52) _ _ ?_ r hr
  intro b c1 hc1 hb
  have hc1 := List.mem_range.1 hc1
  refine foldl_preserves (Stored 52) _ _ ?_ b hb
  intro b c2 hc2 hb
  have hc2 := List.mem_range.1 hc2
  exact hb.addCombo (by omega) (by omega) (by omega) (by omega)

theorem Stored.parseHand {r : CardRange} (hr : Stored 52 r) (p : List Char) :
    Stored 52 (r.parseHand p).2.2 := by
  rcases parseHand_shape r p with h | ⟨c1, c2, h1, h2, hne, h⟩ | ⟨r1, r2, su, off, h1, h2, h | h⟩
  · rw [h]; exact hr
  · rw [h]; exact hr.addCombo (by omega) h1 h2 hne
  · rw [h]; exact hr.addCombos h1 h2 su off
  · rw [h]; exact hr.addCombosPlus h1 h2 su off

theorem Stored.parseLoop (fuel : Nat) {r : CardRange} (hr : Stored 52 r) (p : List Char) :
    Stored 52 (r.parseLoop fuel p).1 := by
  induction fuel generalizing r p with
  | zero => exact hr
  | succ n ih =>
    unfold CardRange.parseLoop
    simp only []
    have := hr.parseHand p
    split
    · split
      · exact ih this _
      · exact this
    · exact this

theorem Stored.removeDuplicates {n : Nat} {r : CardRange} (hr : Stored n r) :
    Stored n r.removeDuplicates :=
  ⟨hr.1, fun p hp => hr.2 p ((mem_removeDuplicates r p).1 hp)⟩

/-- The expression constructor keeps the invariant, for every text. -/
theorem Stored.ofText (text : List Char) : Stored 52 (CardRange.ofText text) := by
  unfold CardRange.ofText
  simp only []
  apply Stored.removeDuplicates
  have h := Stored.parseLoop ((normalize text).length + 1) (Stored.empty 52) (normalize text)
  split
  · exact h.addAll
  · exact h

/-- The vector constructor keeps the invariant, for bytes that differ within
each pair. -/
theorem Stored.ofVector (combos : List (Nat × Nat))
    (h : ∀ p ∈ combos, p.1 < 256 ∧ p.2 < 256 ∧ p.1 ≠ p.2) :
    Stored 256 (CardRange.ofVector combos) := by
  unfold CardRange.ofVector
  apply Stored.removeDuplicates
  refine foldl_preserves (Stored 256) _ _ ?_ _ (Stored.empty 256)
  intro b p hp hb
  have := h p hp
  exact hb.addCombo (by omega) this.1 this.2.1 this.2.2

/-! ### What the generators append -/

theorem foldl_list {α : Type} (f : CardRange → α → CardRange) (g : α → List (Nat × Nat))
    (l : List α) (hf : ∀ acc a, a ∈ l → (f acc a).mCombinations = acc.mCombinations ++ g a)
    (r : CardRange) : (l.foldl f r).mCombinations = r.mCombinations ++ l.flatMap g := by
  induction l generalizing r with
  | nil => simp
  | cons a l ih =>
    rw [List.foldl_cons, ih (fun acc x hx => hf acc x (List.mem_cons_of_mem a hx)),
      hf r a (List.mem_cons_self a l), List.flatMap_cons, List.append_assoc]

theorem addCombosPlus_list (r : CardRange) (r1 r2 : Nat) (su off : Bool) :
    (r.addCombosPlus r1 r2 su off).mCombinations =
      r.mCombinations ++
        if r1 = r2 then (List.range' r1 (13 - r1)).flatMap (fun q => combosOf q q su off)
        else (List.range' (min r1 r2) (max r1 r2 - min r1 r2)).flatMap
          (fun q => combosOf (max r1 r2) q su off) := by
  unfold CardRange.addCombosPlus
  by_cases h : r1 = r2
  · simp only [h, beq_self_eq_true, if_true]
    exact foldl_list _ _ _ (fun acc q _ => addCombos_list acc q q su off) r
  · have hb : (r1 == r2) = false := by simpa using h
    simp only [hb, h, if_false, Bool.false_eq_true]
    have e1 : (if r1 < r2 then r2 else r1) = max r1 r2 := by split <;> omega
    have e2 : (if r1 < r2 then r1 else r2) = min r1 r2 := by split <;> omega
    rw [e1, e2]
    exact foldl_list _ _ _ (fun acc q _ => addCombos_list acc (max r1 r2) q su off) r

theorem addAll_list (r : CardRange) :
    r.addAll.mCombinations =
      r.mCombinations ++
        (List.range 52).flatMap (fun c1 => (List.range c1).map (fun c2 => (c1, c2))) := by
  unfold CardRange.addAll CARD_COUNT
  refine foldl_list _ _ _ ?_ r
  intro acc c1 hc1
  have hc1 := List.mem_range.1 hc1
  have := foldl_list (fun acc c2 => acc.addCombo c1 c2) (fun c2 => [(c1, c2)]) (List.range c1)
    (fun acc c2 hc2 => by
      have hc2 := List.mem_range.1 hc2
      rw [addCombo_list]
      congr 2
      unfold storedPair
      rw [if_neg (by omega)]
      apply Prod.ext <;> simp <;> omega) acc
  rw [this]
  congr 1
  induction (List.range c1) with
  | nil => rfl
  | cons a l ih => simp [List.flatMap_cons, ih]

/-! ### Parsing one term -/

/-- `parseHand` on a text that starts with two rank characters: the term has no
explicit suits, and what follows is read as the suffix. -/
theorem parseHand_ranks (self : CardRange) (c1 c2 : Char) (rest : List Char)
    (h1 : charToRank c1 ≠ NOT_FOUND) (h2 : charToRank c2 ≠ NOT_FOUND) :
    self.parseHand (c1 :: c2 :: rest) =
      if (parseChar (if (parseChar rest 'o').1 = true then (false, (parseChar rest 'o').2)
          else parseChar (parseChar rest 'o').2 's').2 '+').1 = true then
        (true,
          (parseChar (if (parseChar rest 'o').1 = true then (false, (parseChar rest 'o').2)
            else parseChar (parseChar rest 'o').2 's').2 '+').2,
          self.addCombosPlus (charToRank c1) (charToRank c2) (!(parseChar rest 'o').1)
            (!(if (parseChar rest 'o').1 = true then (false, (parseChar rest 'o').2)
              else parseChar (parseChar rest 'o').2 's').1))
      else
        (true,
          (parseChar (if (parseChar rest 'o').1 = true then (false, (parseChar rest 'o').2)
            else parseChar (parseChar rest 'o').2 's').2 '+').2,
          self.addCombos (charToRank c1) (charToRank c2) (!(parseChar rest 'o').1)
            (!(if (parseChar rest 'o').1 = true then (false, (parseChar rest 'o').2)
              else parseChar (parseChar rest 'o').2 's').1)) := by
  have hs := (rankChar_facts c2 h2).2.2.2
  unfold CardRange.parseHand
  simp only [parseRank_cons, parseSuit_cons, h1, h2, hs, if_true, if_false, Bool.not_true,
    Bool.not_false, Bool.false_eq_true]

/-- `parseHand` on a text that starts with two cards written with their suits. -/
theorem parseHand_explicit (self : CardRange) (c1 d1 c2 d2 : Char) (rest : List Char)
    (h1 : charToRank c1 ≠ NOT_FOUND) (g1 : charToSuit d1 ≠ NOT_FOUND)
    (h2 : charToRank c2 ≠ NOT_FOUND) (g2 : charToSuit d2 ≠ NOT_FOUND) :
    self.parseHand (c1 :: d1 :: c2 :: d2 :: rest) =
      if 4 * charToRank c1 + charToSuit d1 = 4 * charToRank c2 + charToSuit d2 then
        (false, c1 :: d1 :: c2 :: d2 :: rest, self)
      else
        (true, rest,
          self.addCombo (4 * charToRank c1 + charToSuit d1) (4 * charToRank c2 + charToSuit d2)) := by
  unfold CardRange.parseHand
  simp only [parseRank_cons, parseSuit_cons, h1, h2, g1, g2, if_true, if_false, Bool.not_true,
    Bool.not_false, Bool.false_eq_true, beq_iff_eq]

theorem random_toList : "random".toList = ['r', 'a', 'n', 'd', 'o', 'm'] := by decide

theorem normalize_cons_rank (c : Char) (rest : List Char) (h : charToRank c ≠ NOT_FOUND) :
    normalize (c :: rest) = tolower c :: normalize rest := by
  simp [normalize, (rankChar_facts c h).1]

theorem normalize_cons_suit (c : Char) (rest : List Char) (h : charToSuit c ≠ NOT_FOUND) :
    normalize (c :: rest) = c :: normalize rest := by
  simp [normalize, (suitChar_facts c h).1, (suitChar_facts c h).2.1]

theorem tolower_rank_ne (c : Char) (h : charToRank c ≠ NOT_FOUND) :
    charToRank (tolower c) ≠ NOT_FOUND := by
  rw [(rankChar_facts c h).2.1]; exact h

/-- The expression constructor on a term of two rank characters and one of the
six suffixes: the parser makes exactly one call of `addCombos` or
`addCombosPlus`, with the flags of the suffix. -/
theorem ofText_rank_terms (c1 c2 : Char) (h1 : charToRank c1 ≠ NOT_FOUND)
    (h2 : charToRank c2 ≠ NOT_FOUND) :
    CardRange.ofText [c1, c2] =
      (CardRange.empty.addCombos (charToRank c1) (charToRank c2) true true).removeDuplicates ∧
    CardRange.ofText [c1, c2, 's'] =
      (CardRange.empty.addCombos (charToRank c1) (charToRank c2) true false).removeDuplicates ∧
    CardRange.ofText [c1, c2, 'o'] =
      (CardRange.empty.addCombos (charToRank c1) (charToRank c2) false true).removeDuplicates ∧
    CardRange.ofText [c1, c2, '+'] =
      (CardRange.empty.addCombosPlus (charToRank c1) (charToRank c2) true true).removeDuplicates ∧
    CardRange.ofText [c1, c2, 's', '+'] =
      (CardRange.empty.addCombosPlus (charToRank c1) (charToRank c2) true false).removeDuplicates ∧
    CardRange.ofText [c1, c2, 'o', '+'] =
      (CardRange.empty.addCombosPlus (charToRank c1) (charToRank c2) false true).removeDuplicates := by
  have e1 := (rankChar_facts c1 h1).2.1
  have e2 := (rankChar_facts c2 h2).2.1
  have l1 := tolower_rank_ne c1 h1
  have l2 := tolower_rank_ne c2 h2
  have n0 : normalize [] = [] := rfl
  have ns : normalize ['s'] = ['s'] := by decide
  have no : normalize ['o'] = ['o'] := by decide
  have np : normalize ['+'] = ['+'] := by decide
  have nsp : normalize ['s', '+'] = ['s', '+'] := by decide
  have nop : normalize ['o', '+'] = ['o', '+'] := by decide
  refine ⟨?_, ?_, ?_, ?_, ?_, ?_⟩ <;>
  · unfold CardRange.ofText
    simp only [normalize_cons_rank _ _ h1, normalize_cons_rank _ _ h2, n0, ns, no, np, nsp, nop,
      random_toList, List.length_cons, List.length_nil]
    unfold CardRange.parseLoop
    simp only [parseHand_ranks _ _ _ _ l1 l2, e1, e2]
    simp [parseChar_cons, parseChar_nil]

/-! ## The claims -/

/-- C1: in every Range built by the expression constructor (any text) or by the
vector constructor (any list of pairs of bytes whose two cards differ), every
stored combination `(a, b)` has `rank a ≥ rank b`, and `suit a > suit b` when
the ranks are equal, with `rank x = x / 4` and `suit x = x % 4`. -/
theorem combinations_canonical_order :
    (∀ (text : List Char) (p : Nat × Nat), p ∈ (CardRange.ofText text).combinations →
      p.2 / 4 ≤ p.1 / 4 ∧ (p.1 / 4 = p.2 / 4 → p.2 % 4 < p.1 % 4)) ∧
    (∀ (combos : List (Nat × Nat)) (p : Nat × Nat),
      (∀ q ∈ combos, q.1 < 256 ∧ q.2 < 256 ∧ q.1 ≠ q.2) →
      p ∈ (CardRange.ofVector combos).combinations →
      p.2 / 4 ≤ p.1 / 4 ∧ (p.1 / 4 = p.2 / 4 → p.2 % 4 < p.1 % 4)) := by
  constructor
  · intro text p hp
    have := (Stored.ofText text).2 p hp
    omega
  · intro combos p h hp
    have := (Stored.ofVector combos h).2 p hp
    omega

/-- C1, at the text `AhKd` and at the vector `[(2, 53), (7, 4), (4, 7)]`. -/
theorem combinations_canonical_order_witness :
    ((45 : Nat) / 4 ≤ 50 / 4 ∧ ((50 : Nat) / 4 = 45 / 4 → 45 % 4 < 50 % 4)) ∧
    ((2 : Nat) / 4 ≤ 53 / 4 ∧ ((53 : Nat) / 4 = 2 / 4 → 2 % 4 < 53 % 4)) :=
  ⟨combinations_canonical_order.1 "AhKd".toList (50, 45) (by decide),
   combinations_canonical_order.2 [(2, 53), (7, 4), (4, 7)] (53, 2) (by decide) (by decide)⟩

theorem no_duplicate_pair_of_stored (n : Nat) (r : CardRange) (hr : Stored n r.removeDuplicates)
    (i j : Nat) (p q : Nat × Nat) (hij : i ≠ j)
    (hi : r.removeDuplicates.mCombinations[i]? = some p)
    (hj : r.removeDuplicates.mCombinations[j]? = some q) :
    ¬ ((p.1 = q.1 ∧ p.2 = q.2) ∨ (p.1 = q.2 ∧ p.2 = q.1)) := by
  have hnd := removeDuplicates_nodup r
  obtain ⟨hi', ei⟩ := List.getElem?_eq_some.1 hi
  obtain ⟨hj', ej⟩ := List.getElem?_eq_some.1 hj
  have h1 := hr.2 p (ei ▸ List.getElem_mem hi')
  have h2 := hr.2 q (ej ▸ List.getElem_mem hj')
  rintro (⟨e1, e2⟩ | ⟨e1, e2⟩)
  · have : p = q := Prod.ext e1 e2
    rw [← ei, ← ej] at this
    exact hij ((hnd.getElem_inj_iff).1 this)
  · rw [e1, e2] at h1
    omega

/-- C2: in every Range built by the expression constructor (any text) or by the
vector constructor (any list of pairs of bytes whose two cards differ), no two
positions `i ≠ j` of `combinations()` hold the same unordered pair of cards. -/
theorem combinations_no_duplicate_pair :
    (∀ (text : List Char) (i j : Nat) (p q : Nat × Nat), i ≠ j →
      (CardRange.ofText text).combinations[i]? = some p →
      (CardRange.ofText text).combinations[j]? = some q →
      ¬ ((p.1 = q.1 ∧ p.2 = q.2) ∨ (p.1 = q.2 ∧ p.2 = q.1))) ∧
    (∀ (combos : List (Nat × Nat)) (i j : Nat) (p q : Nat × Nat),
      (∀ c ∈ combos, c.1 < 256 ∧ c.2 < 256 ∧ c.1 ≠ c.2) → i ≠ j →
      (CardRange.ofVector combos).combinations[i]? = some p →
      (CardRange.ofVector combos).combinations[j]? = some q →
      ¬ ((p.1 = q.1 ∧ p.2 = q.2) ∨ (p.1 = q.2 ∧ p.2 = q.1))) := by
  constructor
  · intro text i j p q hij hi hj
    exact no_duplicate_pair_of_stored 52 _ (Stored.ofText text) i j p q hij hi hj
  · intro combos i j p q h hij hi hj
    exact no_duplicate_pair_of_stored 256 _ (Stored.ofVector combos h) i j p q hij hi hj

/-- C2, at the text `AKs,AKs,KAs` (positions 0 and 3) and at the vector
`[(2, 53), (53, 2), (4, 7)]` (positions 0 and 1). -/
theorem combinations_no_duplicate_pair_witness :
    ¬ (((48 : Nat) = 51 ∧ (44 : Nat) = 47) ∨ ((48 : Nat) = 47 ∧ (44 : Nat) = 51)) ∧
    ¬ (((7 : Nat) = 53 ∧ (4 : Nat) = 2) ∨ ((7 : Nat) = 2 ∧ (4 : Nat) = 53)) :=
  ⟨combinations_no_duplicate_pair.1 "AKs,AKs,KAs".toList 0 3 (48, 44) (51, 47) (by decide)
      (by decide) (by decide),
   combinations_no_duplicate_pair.2 [(2, 53), (53, 2), (4, 7)] 0 1 (7, 4) (53, 2) (by decide)
      (by decide) (by decide) (by decide)⟩

/-- C3, as the spec words it, fails at the text `22,AA`: the sixes of deuces
come first and the aces last, so the rank of the first card goes up. -/
theorem combinations_descending_order_counterexample :
    (CardRange.ofText "22,AA".toList).combinations =
      [(1, 0), (2, 0), (2, 1), (3, 0), (3, 1), (3, 2),
       (49, 48), (50, 48), (50, 49), (51, 48), (51, 49), (51, 50)] ∧
    ¬ List.Pairwise specSequenceOrder (CardRange.ofText "22,AA".toList).combinations := by
  decide

/-- C3, amended: for every constructed Range (expression constructor, any text;
vector constructor, any list) the sequence of `combinations()` is ordered by
rank of the first card ascending, then rank of the second card ascending, then
suit of the first card ascending, then suit of the second card ascending. -/
theorem combinations_ascending_order :
    (∀ text : List Char,
      List.Pairwise ascendingSequenceOrder (CardRange.ofText text).combinations) ∧
    (∀ combos : List (Nat × Nat),
      List.Pairwise ascendingSequenceOrder (CardRange.ofVector combos).combinations) := by
  have key : ∀ r : CardRange,
      List.Pairwise ascendingSequenceOrder r.removeDuplicates.mCombinations := fun r =>
    (removeDuplicates_sorted r).imp (fun {x y} h => by
      unfold keyLt at h
      unfold ascendingSequenceOrder
      omega)
  exact ⟨fun text => key _, fun combos => key _⟩

/-- C4: `strToCardNumber (cardNumberToStr c) = c` for every card index below 52. -/
theorem strToCardNumber_cardNumberToStr (c : Nat) (h : c < 52) :
    strToCardNumber (cardNumberToStr c) = c := by
  have key : ∀ c < 52, strToCardNumber (cardNumberToStr c) = c := by decide
  exact key c h

/-- C4, at the card 51. -/
theorem strToCardNumber_cardNumberToStr_witness :
    strToCardNumber (cardNumberToStr 51) = 51 :=
  strToCardNumber_cardNumberToStr 51 (by decide)

/-! ### The literal `random` -/

theorem allPairs_length :
    ((List.range 52).flatMap (fun c1 => (List.range c1).map (fun c2 => (c1, c2)))).length
      = 1326 := by
  rw [List.length_flatMap]
  have : (List.length ∘ fun c1 => List.map (fun c2 => (c1, c2)) (List.range c1)) = id := by
    funext c1; simp
  rw [this]
  decide

theorem mem_allPairs (x y : Nat) :
    (x, y) ∈ (List.range 52).flatMap (fun c1 => (List.range c1).map (fun c2 => (c1, c2))) ↔
      y < x ∧ x < 52 := by
  simp only [List.mem_flatMap, List.mem_map, List.mem_range, Prod.mk.injEq]
  constructor
  · rintro ⟨c1, h1, c2, h2, rfl, rfl⟩
    exact ⟨h2, h1⟩
  · rintro ⟨h1, h2⟩
    exact ⟨x, h2, y, h1, rfl, rfl⟩

theorem allPairs_nodup :
    ((List.range 52).flatMap (fun c1 => (List.range c1).map (fun c2 => (c1, c2)))).Nodup := by
  rw [List.nodup_flatMap]
  constructor
  · intro c1 _
    exact (List.nodup_range c1).map (fun a b h => (Prod.mk.injEq _ _ _ _ ▸ h).2)
  · refine (List.nodup_range 52).imp ?_
    intro a b hab
    simp only [Function.onFun, List.disjoint_left, List.mem_map, List.mem_range]
    rintro p ⟨c, _, rfl⟩ ⟨d, _, hd⟩
    exact hab (Prod.mk.injEq _ _ _ _ ▸ hd).1.symm

theorem ofText_random (text : List Char) (h : normalize text = "random".toList) :
    CardRange.ofText text = CardRange.empty.addAll.removeDuplicates := by
  unfold CardRange.ofText
  simp only [h, if_true]
  have : (CardRange.parseLoop ("random".toList.length + 1) CardRange.empty "random".toList).1
      = CardRange.empty := by decide
  rw [this]

theorem countP_eq_one_of_nodup (l : List (Nat × Nat)) (hnd : l.Nodup) (q : Nat × Nat)
    (hq : q ∈ l) : l.countP (fun p => decide (p = q)) = 1 := by
  induction l with
  | nil => simp at hq
  | cons x l ih =>
    have hx := List.nodup_cons.1 hnd
    rw [List.countP_cons]
    by_cases hxq : x = q
    · subst hxq
      have : l.countP (fun p => decide (p = x)) = 0 := by
        rw [List.countP_eq_zero]
        intro p hp
        simp only [decide_eq_true_eq]
        rintro rfl
        exact hx.1 hp
      simp [this]
    · rcases List.mem_cons.1 hq with h | h
      · exact absurd h.symm hxq
      · simp [hxq, ih hx.2 h]

/-- A pair that stands in a list without repetition is counted once by the
test "is the unordered pair `{a, b}`", when every entry of the list has its
larger card first. -/
theorem countP_unordered_eq_one (l : List (Nat × Nat)) (hnd : l.Nodup)
    (hord : ∀ p ∈ l, p.2 < p.1) (a b : Nat)
    (hmem : (max a b, min a b) ∈ l) :
    l.countP (fun p => (p.1 == a && p.2 == b) || (p.1 == b && p.2 == a)) = 1 := by
  rw [← countP_eq_one_of_nodup l hnd _ hmem]
  apply List.countP_congr
  intro p hp
  have := hord p hp
  obtain ⟨x, y⟩ := p
  simp only [Bool.or_eq_true, Bool.and_eq_true, beq_iff_eq, Prod.mk.injEq, decide_eq_true_eq]
  simp only [] at this
  omega

theorem combinations_eq (r : CardRange) : r.combinations = r.mCombinations := by
  cases r; rfl

/-- C5: when the normalized text is `random`, the Range has exactly 1326
combinations, each a pair of two different cards below 52, and every unordered
pair of different cards below 52 occurs in it exactly once. -/
theorem random_yields_every_pair_once (text : List Char)
    (h : normalize text = "random".toList) :
    (CardRange.ofText text).combinations.length = 1326 ∧
    (∀ p ∈ (CardRange.ofText text).combinations, p.1 < 52 ∧ p.2 < 52 ∧ p.1 ≠ p.2) ∧
    (∀ a b : Nat, a < 52 → b < 52 → a ≠ b →
      (CardRange.ofText text).combinations.countP
        (fun p => (p.1 == a && p.2 == b) || (p.1 == b && p.2 == a)) = 1) := by
  rw [ofText_random text h]
  rw [combinations_eq]
  have hl : CardRange.empty.addAll.mCombinations =
      (List.range 52).flatMap (fun c1 => (List.range c1).map (fun c2 => (c1, c2))) := by
    rw [addAll_list]
    simp only [CardRange.empty, List.nil_append]
  have hnd : CardRange.empty.addAll.mCombinations.Nodup := by
    rw [hl]; exact allPairs_nodup
  have hp := removeDuplicates_perm CardRange.empty.addAll hnd
  have hmem : ∀ x y, (x, y) ∈ CardRange.empty.addAll.removeDuplicates.mCombinations ↔
      y < x ∧ x < 52 := by
    intro x y
    rw [hp.mem_iff, hl]
    exact mem_allPairs x y
  refine ⟨?_, ?_, ?_⟩
  · rw [hp.length_eq, hl]
    exact allPairs_length
  · rintro ⟨x, y⟩ hxy
    have := (hmem x y).1 hxy
    simp only []
    omega
  · intro a b ha hb hab
    apply countP_unordered_eq_one _ (removeDuplicates_nodup _) _ a b
    · exact (hmem _ _).2 (by omega)
    · rintro ⟨x, y⟩ hxy
      exact ((hmem x y).1 hxy).1

/-- C5, at the text ` Ran Dom` and the pair of cards 7 and 40. -/
theorem random_yields_every_pair_once_witness :
    (CardRange.ofText " Ran Dom".toList).combinations.length = 1326 ∧
    (CardRange.ofText " Ran Dom".toList).combinations.countP
        (fun p => (p.1 == 7 && p.2 == 40) || (p.1 == 40 && p.2 == 7)) = 1 :=
  ⟨(random_yields_every_pair_once " Ran Dom".toList (by decide)).1,
   (random_yields_every_pair_once " Ran Dom".toList (by decide)).2.2 7 40 (by decide)
     (by decide) (by decide)⟩

/-! ### Terms of two ranks -/

theorem mem_removeDuplicates_addCombos (r1 r2 : Nat) (su off : Bool) (h1 : r1 < 13)
    (h2 : r2 < 13) (a b : Nat) :
    (a, b) ∈ (CardRange.empty.addCombos r1 r2 su off).removeDuplicates.mCombinations ↔
      (a < 52 ∧ b < 52 ∧ (b / 4 < a / 4 ∨ (a / 4 = b / 4 ∧ b % 4 < a % 4)) ∧
        ((a / 4 = r1 ∧ b / 4 = r2) ∨ (a / 4 = r2 ∧ b / 4 = r1)) ∧
        ((su = true ∧ a % 4 = b % 4) ∨ (off = true ∧ a % 4 ≠ b % 4))) := by
  rw [mem_removeDuplicates]
  exact mem_combosOf r1 r2 su off h1 h2 a b

set_option maxRecDepth 100000 in
theorem addCombos_count :
    ∀ r1 < 13, ∀ r2 < 13,
      (CardRange.empty.addCombos r1 r2 true true).removeDuplicates.mCombinations.length =
        (if r1 = r2 then 6 else 16) ∧
      (CardRange.empty.addCombos r1 r2 true false).removeDuplicates.mCombinations.length =
        (if r1 = r2 then 0 else 4) ∧
      (CardRange.empty.addCombos r1 r2 false true).removeDuplicates.mCombinations.length =
        (if r1 = r2 then 6 else 12) := by
  decide

set_option maxRecDepth 100000 in
theorem addCombosPlus_pair_count :
    ∀ r < 13,
      (CardRange.empty.addCombosPlus r r true true).removeDuplicates.mCombinations.length =
        6 * (13 - r) := by
  decide

/-- C6: a term of two rank characters (either case, either order, equal or
not) with no suffix yields exactly the pairs of two different cards below 52,
stored larger card first, whose ranks are the two ranks of the term; the
sequence has no repetition and has 6 entries when the ranks are equal and 16
when they differ. -/
theorem rank_pair_term_yields_all_combos (c1 c2 : Char) (h1 : charToRank c1 ≤ 12)
    (h2 : charToRank c2 ≤ 12) :
    (∀ a b : Nat, (a, b) ∈ (CardRange.ofText [c1, c2]).combinations ↔
      (a < 52 ∧ b < 52 ∧ (b / 4 < a / 4 ∨ (a / 4 = b / 4 ∧ b % 4 < a % 4)) ∧
        ((a / 4 = charToRank c1 ∧ b / 4 = charToRank c2) ∨
          (a / 4 = charToRank c2 ∧ b / 4 = charToRank c1)))) ∧
    (CardRange.ofText [c1, c2]).combinations.Nodup ∧
    (CardRange.ofText [c1, c2]).combinations.length =
      (if charToRank c1 = charToRank c2 then 6 else 16) := by
  have g1 : charToRank c1 ≠ NOT_FOUND := by unfold NOT_FOUND; omega
  have g2 : charToRank c2 ≠ NOT_FOUND := by unfold NOT_FOUND; omega
  rw [combinations_eq, (ofText_rank_terms c1 c2 g1 g2).1]
  refine ⟨?_, removeDuplicates_nodup _, ?_⟩
  · intro a b
    rw [mem_removeDuplicates_addCombos _ _ _ _ (by omega) (by omega)]
    simp only [true_and]
    constructor
    · rintro ⟨ha, hb, hc, hr, _⟩
      exact ⟨ha, hb, hc, hr⟩
    · rintro ⟨ha, hb, hc, hr⟩
      exact ⟨ha, hb, hc, hr, by omega⟩
  · exact (addCombos_count _ (by omega) _ (by omega)).1

/-- C6, at the texts `44` (six pocket pairs of fours, among them the cards 11
and 8) and `4k` (sixteen combinations). -/
theorem rank_pair_term_yields_all_combos_witness :
    ((11, 8) ∈ (CardRange.ofText ['4', '4']).combinations ∧
      (CardRange.ofText ['4', '4']).combinations.length = 6) ∧
    (CardRange.ofText ['4', 'k']).combinations.length = 16 :=
  ⟨⟨((rank_pair_term_yields_all_combos '4' '4' (by decide) (by decide)).1 11 8).2 (by decide),
    (rank_pair_term_yields_all_combos '4' '4' (by decide) (by decide)).2.2⟩,
   (rank_pair_term_yields_all_combos '4' 'k' (by decide) (by decide)).2.2⟩

/-- C7: for two rank characters, the term with suffix `s` yields exactly the
stored pairs of the two ranks whose cards share a suit, 4 of them when the ranks
differ and none when they are equal; the term with suffix `o` yields exactly
the stored pairs of the two ranks whose cards have different suits, 12 of them
when the ranks differ (and 6 when they are equal). -/
theorem suited_offsuited_terms (c1 c2 : Char) (h1 : charToRank c1 ≤ 12)
    (h2 : charToRank c2 ≤ 12) :
    (∀ a b : Nat, (a, b) ∈ (CardRange.ofText [c1, c2, 's']).combinations ↔
      (a < 52 ∧ b < 52 ∧ (b / 4 < a / 4 ∨ (a / 4 = b / 4 ∧ b % 4 < a % 4)) ∧
        ((a / 4 = charToRank c1 ∧ b / 4 = charToRank c2) ∨
          (a / 4 = charToRank c2 ∧ b / 4 = charToRank c1)) ∧ a % 4 = b % 4)) ∧
    (CardRange.ofText [c1, c2, 's']).combinations.length =
      (if charToRank c1 = charToRank c2 then 0 else 4) ∧
    (∀ a b : Nat, (a, b) ∈ (CardRange.ofText [c1, c2, 'o']).combinations ↔
      (a < 52 ∧ b < 52 ∧ (b / 4 < a / 4 ∨ (a / 4 = b / 4 ∧ b % 4 < a % 4)) ∧
        ((a / 4 = charToRank c1 ∧ b / 4 = charToRank c2) ∨
          (a / 4 = charToRank c2 ∧ b / 4 = charToRank c1)) ∧ a % 4 ≠ b % 4)) ∧
    (CardRange.ofText [c1, c2, 'o']).combinations.length =
      (if charToRank c1 = charToRank c2 then 6 else 12) := by
  have g1 : charToRank c1 ≠ NOT_FOUND := by unfold NOT_FOUND; omega
  have g2 : charToRank c2 ≠ NOT_FOUND := by unfold NOT_FOUND; omega
  rw [combinations_eq, combinations_eq, (ofText_rank_terms c1 c2 g1 g2).2.1,
    (ofText_rank_terms c1 c2 g1 g2).2.2.1]
  refine ⟨?_, ?_, ?_, ?_⟩
  · intro a b
    rw [mem_removeDuplicates_addCombos _ _ _ _ (by omega) (by omega)]
    simp
  · exact (addCombos_count _ (by omega) _ (by omega)).2.1
  · intro a b
    rw [mem_removeDuplicates_addCombos _ _ _ _ (by omega) (by omega)]
    simp
  · exact (addCombos_count _ (by omega) _ (by omega)).2.2

/-- C7, at the texts `AKs` (4 combinations, among them the cards 48 and 44),
`AAs` (none) and `AKo` (12 combinations). -/
theorem suited_offsuited_terms_witness :
    ((48, 44) ∈ (CardRange.ofText ['A', 'K', 's']).combinations ∧
      (CardRange.ofText ['A', 'K', 's']).combinations.length = 4) ∧
    (CardRange.ofText ['A', 'A', 's']).combinations.length = 0 ∧
    (CardRange.ofText ['A', 'K', 'o']).combinations.length = 12 :=
  ⟨⟨((suited_offsuited_terms 'A' 'K' (by decide) (by decide)).1 48 44).2 (by decide),
    (suited_offsuited_terms 'A' 'K' (by decide) (by decide)).2.1⟩,
   (suited_offsuited_terms 'A' 'A' (by decide) (by decide)).2.1,
   (suited_offsuited_terms 'A' 'K' (by decide) (by decide)).2.2.2⟩

/-! ### Terms with explicit suits -/

theorem removeDuplicates_singleton (r : CardRange) (x : Nat × Nat)
    (h : r.mCombinations = [x]) : r.removeDuplicates.mCombinations = [x] := by
  simp [CardRange.removeDuplicates, h, sort, sortInsert, unique, uniqueFrom]

theorem storedPair_eq (c1 c2 : Nat) (h1 : c1 < 256) (h2 : c2 < 256) (hne : c1 ≠ c2) :
    storedPair c1 c2 =
      if c2 / 4 < c1 / 4 ∨ (c1 / 4 = c2 / 4 ∧ c2 % 4 < c1 % 4) then (c1, c2) else (c2, c1) := by
  unfold storedPair
  rw [Nat.mod_eq_of_lt h1, Nat.mod_eq_of_lt h2]
  split_ifs <;> first | rfl | omega

theorem cardChars (c : Nat) (h : c < 52) :
    charToRank (rankToChar (c / 4)) = c / 4 ∧ charToSuit (suitToChar (c % 4)) = c % 4 :=
  ⟨rankToChar_facts (c / 4) (by omega), suitToChar_facts (c % 4) (by omega)⟩

/-- C8: for two cards below 52, written with `cardNumberToStr` one after the
other: when they differ the Range has exactly one combination, the two cards
with the one of higher rank (of higher suit, for equal ranks) first; when they
are the same card, `parseHand` fails with the cursor back at the start of the
term and the Range is empty. -/
theorem explicit_suit_term (c1 c2 : Nat) (h1 : c1 < 52) (h2 : c2 < 52) :
    (c1 ≠ c2 →
      (CardRange.ofText (cardNumberToStr c1 ++ cardNumberToStr c2)).combinations =
        [if c2 / 4 < c1 / 4 ∨ (c1 / 4 = c2 / 4 ∧ c2 % 4 < c1 % 4) then (c1, c2) else (c2, c1)]) ∧
    (c1 = c2 →
      CardRange.empty.parseHand (normalize (cardNumberToStr c1 ++ cardNumberToStr c2)) =
        (false, normalize (cardNumberToStr c1 ++ cardNumberToStr c2), CardRange.empty) ∧
      (CardRange.ofText (cardNumberToStr c1 ++ cardNumberToStr c2)).combinations = []) := by
  obtain ⟨a1, b1⟩ := cardChars c1 h1
  obtain ⟨a2, b2⟩ := cardChars c2 h2
  have ga1 : charToRank (rankToChar (c1 / 4)) ≠ NOT_FOUND := by rw [a1]; unfold NOT_FOUND; omega
  have ga2 : charToRank (rankToChar (c2 / 4)) ≠ NOT_FOUND := by rw [a2]; unfold NOT_FOUND; omega
  have gb1 : charToSuit (suitToChar (c1 % 4)) ≠ NOT_FOUND := by rw [b1]; unfold NOT_FOUND; omega
  have gb2 : charToSuit (suitToChar (c2 % 4)) ≠ NOT_FOUND := by rw [b2]; unfold NOT_FOUND; omega
  have hn : normalize (cardNumberToStr c1 ++ cardNumberToStr c2) =
      [tolower (rankToChar (c1 / 4)), suitToChar (c1 % 4),
        tolower (rankToChar (c2 / 4)), suitToChar (c2 % 4)] := by
    unfold cardNumberToStr
    simp only [List.cons_append, List.nil_append]
    rw [normalize_cons_rank _ _ ga1, normalize_cons_suit _ _ gb1, normalize_cons_rank _ _ ga2,
      normalize_cons_suit _ _ gb2]
    rfl
  have hp : ∀ self : CardRange,
      self.parseHand [tolower (rankToChar (c1 / 4)), suitToChar (c1 % 4),
        tolower (rankToChar (c2 / 4)), suitToChar (c2 % 4)] =
      if c1 = c2 then
        (false, [tolower (rankToChar (c1 / 4)), suitToChar (c1 % 4),
          tolower (rankToChar (c2 / 4)), suitToChar (c2 % 4)], self)
      else (true, [], self.addCombo c1 c2) := by
    intro self
    rw [parseHand_explicit self _ _ _ _ [] (tolower_rank_ne _ ga1) gb1 (tolower_rank_ne _ ga2) gb2,
      (rankChar_facts _ ga1).2.1, (rankChar_facts _ ga2).2.1, a1, a2, b1, b2]
    have e1 : 4 * (c1 / 4) + c1 % 4 = c1 := by omega
    have e2 : 4 * (c2 / 4) + c2 % 4 = c2 := by omega
    rw [e1, e2]
  have hnr : ¬ ([tolower (rankToChar (c1 / 4)), suitToChar (c1 % 4),
        tolower (rankToChar (c2 / 4)), suitToChar (c2 % 4)] = "random".toList) := by
    rw [random_toList]
    intro h
    have := congrArg List.length h
    simp at this
  constructor
  · intro hne
    rw [combinations_eq]
    unfold CardRange.ofText
    simp only [hn, hnr, if_false, List.length_cons, List.length_nil]
    unfold CardRange.parseLoop
    simp only [hp, hne, if_false, if_true]
    rw [parseChar_nil ',' (by decide)]
    simp only [Bool.false_eq_true, if_false]
    apply removeDuplicates_singleton
    rw [addCombo_list, storedPair_eq c1 c2 (by omega) (by omega) hne]
    rfl
  · intro he
    subst he
    have hp2 : ∀ self : CardRange,
        self.parseHand [tolower (rankToChar (c1 / 4)), suitToChar (c1 % 4),
          tolower (rankToChar (c1 / 4)), suitToChar (c1 % 4)] =
        (false, [tolower (rankToChar (c1 / 4)), suitToChar (c1 % 4),
          tolower (rankToChar (c1 / 4)), suitToChar (c1 % 4)], self) := fun self => by
      rw [hp self, if_pos rfl]
    rw [combinations_eq]
    refine ⟨?_, ?_⟩
    · rw [hn, hp2]
    · unfold CardRange.ofText
      simp only [hn, hnr, if_false, List.length_cons, List.length_nil]
      unfold CardRange.parseLoop
      simp only [hp2, Bool.false_eq_true, if_false]
      rfl

/-- C8, at the cards 50 and 45 (`Ah`, `Kd`: one combination, the ace first) and
at the card 50 twice (`AhAh`: the term fails, the Range is empty). -/
theorem explicit_suit_term_witness :
    (CardRange.ofText (cardNumberToStr 50 ++ cardNumberToStr 45)).combinations = [(50, 45)] ∧
    (CardRange.ofText (cardNumberToStr 50 ++ cardNumberToStr 50)).combinations = [] :=
  ⟨(explicit_suit_term 50 45 (by decide) (by decide)).1 (by decide),
   ((explicit_suit_term 50 50 (by decide) (by decide)).2 rfl).2⟩

/-! ### Terms with `+` -/

theorem mem_removeDuplicates_addCombosPlus (r1 r2 : Nat) (su off : Bool) (p : Nat × Nat) :
    p ∈ (CardRange.empty.addCombosPlus r1 r2 su off).removeDuplicates.mCombinations ↔
      if r1 = r2 then ∃ q, r1 ≤ q ∧ q < 13 ∧ p ∈ combosOf q q su off
      else ∃ q, min r1 r2 ≤ q ∧ q < max r1 r2 ∧ p ∈ combosOf (max r1 r2) q su off := by
  rw [mem_removeDuplicates, addCombosPlus_list]
  simp only [CardRange.empty, List.nil_append]
  split
  · simp only [List.mem_flatMap, List.mem_range'_1]
    constructor
    · rintro ⟨q, ⟨hq1, hq2⟩, hp⟩
      exact ⟨q, hq1, by omega, hp⟩
    · rintro ⟨q, hq1, hq2, hp⟩
      exact ⟨q, ⟨hq1, by omega⟩, hp⟩
  · simp only [List.mem_flatMap, List.mem_range'_1]
    constructor
    · rintro ⟨q, ⟨hq1, hq2⟩, hp⟩
      exact ⟨q, hq1, by omega, hp⟩
    · rintro ⟨q, hq1, hq2, hp⟩
      exact ⟨q, ⟨hq1, by omega⟩, hp⟩

/-- C9: two rank characters of one rank `r` followed by `+` yield exactly the
stored pairs of two different cards of one rank `q`, for the ranks `q` with
`r ≤ q ≤ 12`; there are `6 * (13 - r)` of them. -/
theorem pocket_pair_plus_term (c1 c2 : Char) (h1 : charToRank c1 ≤ 12)
    (h2 : charToRank c2 = charToRank c1) :
    (∀ a b : Nat, (a, b) ∈ (CardRange.ofText [c1, c2, '+']).combinations ↔
      (a < 52 ∧ b < 52 ∧ a / 4 = b / 4 ∧ b % 4 < a % 4 ∧ charToRank c1 ≤ a / 4)) ∧
    (CardRange.ofText [c1, c2, '+']).combinations.length = 6 * (13 - charToRank c1) := by
  have g1 : charToRank c1 ≠ NOT_FOUND := by unfold NOT_FOUND; omega
  have g2 : charToRank c2 ≠ NOT_FOUND := by rw [h2]; exact g1
  rw [combinations_eq, (ofText_rank_terms c1 c2 g1 g2).2.2.2.1, h2]
  refine ⟨?_, addCombosPlus_pair_count _ (by omega)⟩
  intro a b
  rw [mem_removeDuplicates_addCombosPlus, if_pos rfl]
  constructor
  · rintro ⟨q, hq1, hq2, hp⟩
    have := (mem_combosOf q q true true hq2 hq2 a b).1 hp
    omega
  · rintro ⟨ha, hb, hr, hs, hq⟩
    refine ⟨a / 4, hq, by omega, (mem_combosOf _ _ true true (by omega) (by omega) a b).2 ?_⟩
    refine ⟨ha, hb, Or.inr ⟨hr, hs⟩, Or.inl ⟨rfl, hr.symm⟩, Or.inr ⟨rfl, by omega⟩⟩

/-- C9, at the text `44+`: 66 combinations, among them the two aces 51 and 48. -/
theorem pocket_pair_plus_term_witness :
    (51, 48) ∈ (CardRange.ofText ['4', '4', '+']).combinations ∧
    (CardRange.ofText ['4', '4', '+']).combinations.length = 66 :=
  ⟨((pocket_pair_plus_term '4' '4' (by decide) rfl).1 51 48).2 (by decide),
   (pocket_pair_plus_term '4' '4' (by decide) rfl).2⟩

set_option maxRecDepth 100000 in
theorem k4_plus_count :
    (CardRange.empty.addCombosPlus 11 2 true true).removeDuplicates.mCombinations.length = 144 := by
  decide

/-- C10: for two rank characters of different ranks, in either order, followed
by nothing, `s` or `o` and then `+`, the Range holds exactly what `addCombos`
appends for the higher rank `hi` and a kicker `r`, with the flags of the suffix,
for the kickers `lo ≤ r ≤ hi - 1`. The text `K4+` yields 144 combinations. -/
theorem kicker_plus_term (c1 c2 : Char) (sfx : List Char) (su off : Bool)
    (h1 : charToRank c1 ≤ 12) (h2 : charToRank c2 ≤ 12) (hne : charToRank c1 ≠ charToRank c2)
    (hs : (sfx = [] ∧ su = true ∧ off = true) ∨ (sfx = ['s'] ∧ su = true ∧ off = false) ∨
      (sfx = ['o'] ∧ su = false ∧ off = true)) :
    (∀ p : Nat × Nat, p ∈ (CardRange.ofText (c1 :: c2 :: (sfx ++ ['+']))).combinations ↔
      ∃ r, min (charToRank c1) (charToRank c2) ≤ r ∧ r < max (charToRank c1) (charToRank c2) ∧
        p ∈ (CardRange.empty.addCombos (max (charToRank c1) (charToRank c2)) r su off).mCombinations) ∧
    (CardRange.ofText ['K', '4', '+']).combinations.length = 144 := by
  have g1 : charToRank c1 ≠ NOT_FOUND := by unfold NOT_FOUND; omega
  have g2 : charToRank c2 ≠ NOT_FOUND := by unfold NOT_FOUND; omega
  have key := fun p => mem_removeDuplicates_addCombosPlus (charToRank c1) (charToRank c2) su off p
  simp only [if_neg hne] at key
  constructor
  · intro p
    rw [combinations_eq]
    rcases hs with ⟨rfl, rfl, rfl⟩ | ⟨rfl, rfl, rfl⟩ | ⟨rfl, rfl, rfl⟩
    · rw [List.nil_append, (ofText_rank_terms c1 c2 g1 g2).2.2.2.1]
      exact key p
    · rw [List.singleton_append, (ofText_rank_terms c1 c2 g1 g2).2.2.2.2.1]
      exact key p
    · rw [List.singleton_append, (ofText_rank_terms c1 c2 g1 g2).2.2.2.2.2]
      exact key p
  · rw [combinations_eq, (ofText_rank_terms 'K' '4' (by decide) (by decide)).2.2.2.1]
    exact k4_plus_count

/-- C10, at the text `4Ks+` and the stored pair of the cards 44 (king) and 36
(jack), both of suit 0: the kicker is the jack, rank 9. -/
theorem kicker_plus_term_witness :
    (44, 36) ∈ (CardRange.ofText ['4', 'K', 's', '+']).combinations ∧
    (CardRange.ofText ['K', '4', '+']).combinations.length = 144 :=
  ⟨((kicker_plus_term '4' 'K' ['s'] true false (by decide) (by decide) (by decide)
      (by decide)).1 (44, 36)).2 ⟨9, by decide, by decide, by decide⟩,
   (kicker_plus_term '4' 'K' ['s'] true false (by decide) (by decide) (by decide)
      (by decide)).2⟩

/-! ## The claims, continued -/

theorem eq_of_sorted_of_mem_iff (s t : List (Nat × Nat)) (hs : s.Pairwise keyLt)
    (ht : t.Pairwise keyLt) (hm : ∀ x, x ∈ s ↔ x ∈ t) : s = t := by
  induction s generalizing t with
  | nil =>
    cases t with
    | nil => rfl
    | cons b t => exact absurd ((hm b).2 (List.mem_cons_self b t)) (List.not_mem_nil b)
  | cons a s ih =>
    cases t with
    | nil => exact absurd ((hm a).1 (List.mem_cons_self a s)) (List.not_mem_nil a)
    | cons b t =>
      have hs1 := List.pairwise_cons.1 hs
      have ht1 := List.pairwise_cons.1 ht
      have hab : a = b := by
        rcases List.mem_cons.1 ((hm a).1 (List.mem_cons_self a s)) with h | ha
        · exact h
        rcases List.mem_cons.1 ((hm b).2 (List.mem_cons_self b t)) with h | hb
        · exact h.symm
        exact absurd (keyLt_trans (ht1.1 a ha) (hs1.1 b hb)) (keyLt_irrefl b)
      subst hab
      congr 1
      refine ih t hs1.2 ht1.2 ?_
      intro x
      constructor
      · intro hx
        rcases List.mem_cons.1 ((hm x).1 (List.mem_cons_of_mem a hx)) with h | h
        · subst h; exact absurd (hs1.1 x hx) (keyLt_irrefl x)
        · exact h
      · intro hx
        rcases List.mem_cons.1 ((hm x).2 (List.mem_cons_of_mem a hx)) with h | h
        · subst h; exact absurd (ht1.1 x hx) (keyLt_irrefl x)
        · exact h

theorem normalize_append (a b : List Char) : normalize (a ++ b) = normalize a ++ normalize b := by
  simp [normalize, List.filter_append]

theorem normalize_cons (c : Char) (l : List Char) :
    normalize (c :: l) = if isgraph c = true then tolower c :: normalize l else normalize l := by
  unfold normalize
  by_cases h : isgraph c = true <;> simp [h]

/-! ### Terms joined by commas -/

theorem parseChar_of_ne (p : List Char) (c : Char) (h : deref p ≠ c) :
    parseChar p c = (false, p) := by
  unfold parseChar
  simp [h]

/-- What `parseHand` does to the object is to append a list that depends on the
text only; its result and the new cursor do not depend on the object. -/
theorem parseHand_appends (r : CardRange) (p : List Char) :
    (r.parseHand p).1 = (CardRange.empty.parseHand p).1 ∧
    (r.parseHand p).2.1 = (CardRange.empty.parseHand p).2.1 ∧
    (r.parseHand p).2.2.mCombinations =
      r.mCombinations ++ (CardRange.empty.parseHand p).2.2.mCombinations := by
  unfold CardRange.parseHand
  simp only []
  generalize parseRank p = a
  generalize parseSuit a.2.1 = b
  generalize parseRank b.2.1 = c
  generalize parseSuit c.2.1 = d
  generalize parseChar c.2.1 'o' = o
  generalize parseChar o.2 's' = s
  obtain ⟨a1, a2, a3⟩ := a
  obtain ⟨b1, b2, b3⟩ := b
  obtain ⟨c1, c2, c3⟩ := c
  obtain ⟨d1, d2, d3⟩ := d
  obtain ⟨o1, o2⟩ := o
  obtain ⟨s1, s2⟩ := s
  simp only []
  have he : CardRange.empty.mCombinations = [] := rfl
  cases a1
  · simp [he]
  cases c1
  · simp [he]
  cases b1
  · simp only [Bool.not_true, Bool.false_eq_true, if_false]
    generalize (parseChar (if o1 = true then (false, o2) else (s1, s2)).2 '+') = q
    obtain ⟨q1, q2⟩ := q
    cases q1
    · simp only [Bool.false_eq_true, if_false, true_and]
      rw [addCombos_list r, addCombos_list CardRange.empty, he, List.nil_append]
    · simp only [if_true, true_and]
      rw [addCombosPlus_list r, addCombosPlus_list CardRange.empty, he, List.nil_append]
  · cases d1
    · simp [he]
    by_cases hcd : 4 * a3 + b3 = 4 * c3 + d3
    · simp [hcd, he]
    · simp [hcd, he, addCombo_list]

theorem parseHand_appends_assert (r : CardRange) (p : List Char) (hr : Stored 52 r) :
    (r.parseHand p).2.2.assertsHeld = true :=
  (hr.parseHand p).1

/-- A well-formed term followed by a text that does not go on as a suffix: the
term is read whole, and the object is what `parseHand` makes of the term
alone. -/
theorem parseHand_term (r : CardRange) (t rest : List Char) (ht : WellFormedTerm t)
    (ho : deref rest ≠ 'o') (hs : deref rest ≠ 's') (hp : deref rest ≠ '+') :
    r.parseHand (t ++ rest) = (true, rest, (r.parseHand t).2.2) := by
  have e0 : deref ([] : List Char) ≠ 'o' := by decide
  have e1 : deref ([] : List Char) ≠ 's' := by decide
  have e2 : deref ([] : List Char) ≠ '+' := by decide
  rcases ht with ⟨c1, c2, sfx, rfl, h1, h2, hsfx⟩ | ⟨c1, d1, c2, d2, rfl, h1, g1, h2, g2, hne⟩
  · rcases hsfx with rfl | rfl | rfl | rfl | rfl | rfl <;>
    · simp only [List.cons_append, List.nil_append]
      rw [parseHand_ranks r c1 c2 _ h1 h2, parseHand_ranks r c1 c2 _ h1 h2]
      simp [parseChar_cons, parseChar_of_ne _ _ ho, parseChar_of_ne _ _ hs,
        parseChar_of_ne _ _ hp, parseChar_of_ne _ _ e0, parseChar_of_ne _ _ e1,
        parseChar_of_ne _ _ e2]
  · simp only [List.cons_append, List.nil_append]
    rw [parseHand_explicit r c1 d1 c2 d2 rest h1 g1 h2 g2,
      parseHand_explicit r c1 d1 c2 d2 [] h1 g1 h2 g2, if_neg hne, if_neg hne]

theorem term_starts_with_rank (t : List Char) (ht : WellFormedTerm t) :
    ∃ c tl, t = c :: tl ∧ charToRank c ≠ NOT_FOUND := by
  rcases ht with ⟨c1, c2, sfx, rfl, h1, _⟩ | ⟨c1, d1, c2, d2, rfl, h1, _⟩
  · exact ⟨c1, _, rfl, h1⟩
  · exact ⟨c1, _, rfl, h1⟩

theorem joinTerms_ne_random (ts : List (List Char)) (hne : ts ≠ [])
    (hwf : ∀ t ∈ ts, WellFormedTerm t) (rest : List Char) :
    joinTerms ts ++ rest ≠ "random".toList := by
  rw [random_toList]
  cases ts with
  | nil => exact absurd rfl hne
  | cons t ts =>
    obtain ⟨c, tl, rfl, hc⟩ := term_starts_with_rank t (hwf t (List.mem_cons_self t ts))
    have hr : c ≠ 'r' := by
      rintro rfl
      exact hc (by decide)
    cases ts with
    | nil =>
      simp only [joinTerms, List.cons_append]
      intro h
      exact hr (List.cons.inj h).1
    | cons u ts =>
      simp only [joinTerms, List.cons_append]
      intro h
      exact hr (List.cons.inj h).1

/-- The loop of the constructor on well-formed terms joined by commas, followed
by a text that does not go on with `,`, `o`, `s` or `+`: every term is read,
one call of `parseHand` each, and the loop stops at the text that follows. -/
theorem parseLoop_terms (ts : List (List Char)) (hne : ts ≠ [])
    (hwf : ∀ t ∈ ts, WellFormedTerm t) (rest : List Char)
    (hc : deref rest ≠ ',') (ho : deref rest ≠ 'o') (hs : deref rest ≠ 's')
    (hp : deref rest ≠ '+') (r : CardRange) (fuel : Nat)
    (hf : (joinTerms ts ++ rest).length < fuel) :
    (r.parseLoop fuel (joinTerms ts ++ rest)).1 =
      ts.foldl (fun acc t => (acc.parseHand t).2.2) r := by
  induction ts generalizing r fuel with
  | nil => exact absurd rfl hne
  | cons t ts ih =>
    cases fuel with
    | zero => omega
    | succ fuel =>
      cases ts with
      | nil =>
        simp only [joinTerms, List.foldl_cons, List.foldl_nil]
        unfold CardRange.parseLoop
        simp only [parseHand_term r t rest (hwf t (List.mem_cons_self t [])) ho hs hp,
          parseChar_of_ne rest ',' hc, if_true, Bool.false_eq_true, if_false]
      | cons u ts =>
        have hd1 : deref (',' :: (joinTerms (u :: ts) ++ rest)) ≠ 'o' := by
          simp [deref]
        have hd2 : deref (',' :: (joinTerms (u :: ts) ++ rest)) ≠ 's' := by
          simp [deref]
        have hd3 : deref (',' :: (joinTerms (u :: ts) ++ rest)) ≠ '+' := by
          simp [deref]
        have hj : joinTerms (t :: u :: ts) ++ rest =
            t ++ ',' :: (joinTerms (u :: ts) ++ rest) := by
          simp [joinTerms]
        rw [hj] at hf ⊢
        unfold CardRange.parseLoop
        simp only [parseHand_term r t _ (hwf t (List.mem_cons_self t _)) hd1 hd2 hd3,
          parseChar_cons, if_true]
        rw [List.foldl_cons]
        refine ih (List.cons_ne_nil u ts) (fun x hx => hwf x (List.mem_cons_of_mem t hx)) _ fuel ?_
        simp only [List.length_append, List.length_cons] at hf ⊢
        omega

theorem normalize_joinTerms (ts : List (List Char)) :
    normalize (joinTerms ts) = joinTerms (ts.map normalize) := by
  induction ts with
  | nil => rfl
  | cons t ts ih =>
    cases ts with
    | nil => rfl
    | cons u ts =>
      have hcomma : normalize (',' :: joinTerms (u :: ts)) = ',' :: normalize (joinTerms (u :: ts)) := by
        rw [normalize_cons]
        have h1 : isgraph ',' = true := by decide
        have h2 : tolower ',' = ',' := by decide
        rw [h1, h2]; rfl
      simp only [joinTerms, List.map_cons] at ih ⊢
      rw [normalize_append, hcomma, ih]

/-- The expression constructor on well-formed terms joined by commas and
followed by a text that does not go on with `,`, `o`, `s` or `+`. -/
theorem ofText_terms (ts : List (List Char)) (hne : ts ≠ [])
    (hwf : ∀ t ∈ ts, WellFormedTerm (normalize t)) (x : List Char)
    (hc : deref (normalize x) ≠ ',') (ho : deref (normalize x) ≠ 'o')
    (hs : deref (normalize x) ≠ 's') (hp : deref (normalize x) ≠ '+') :
    CardRange.ofText (joinTerms ts ++ x) =
      ((ts.map normalize).foldl (fun acc t => (acc.parseHand t).2.2)
        CardRange.empty).removeDuplicates := by
  have hne' : ts.map normalize ≠ [] := by
    intro h; exact hne (List.map_eq_nil_iff.1 h)
  have hwf' : ∀ t ∈ ts.map normalize, WellFormedTerm t := by
    intro t ht
    obtain ⟨u, hu, rfl⟩ := List.mem_map.1 ht
    exact hwf u hu
  unfold CardRange.ofText
  simp only [normalize_append, normalize_joinTerms]
  rw [if_neg (joinTerms_ne_random _ hne' hwf' _),
    parseLoop_terms _ hne' hwf' _ hc ho hs hp CardRange.empty _ (Nat.lt_succ_self _)]

theorem deref_nil_facts :
    deref (normalize []) ≠ ',' ∧ deref (normalize []) ≠ 'o' ∧ deref (normalize []) ≠ 's' ∧
      deref (normalize []) ≠ '+' := by
  decide

theorem ofText_one_term (t : List Char) (ht : WellFormedTerm (normalize t)) :
    CardRange.ofText t = (CardRange.empty.parseHand (normalize t)).2.2.removeDuplicates := by
  have h := ofText_terms [t] (List.cons_ne_nil t [])
    (fun u hu => by rw [List.mem_singleton] at hu; rw [hu]; exact ht) []
    deref_nil_facts.1 deref_nil_facts.2.1 deref_nil_facts.2.2.1 deref_nil_facts.2.2.2
  simpa [joinTerms] using h

theorem ofText_two_terms (t1 t2 : List Char) (h1 : WellFormedTerm (normalize t1))
    (h2 : WellFormedTerm (normalize t2)) :
    CardRange.ofText (t1 ++ ',' :: t2) =
      ((CardRange.empty.parseHand (normalize t1)).2.2.parseHand
        (normalize t2)).2.2.removeDuplicates := by
  have h := ofText_terms [t1, t2] (List.cons_ne_nil t1 [t2])
    (fun u hu => by
      rcases List.mem_cons.1 hu with rfl | hu
      · exact h1
      · rw [List.mem_singleton] at hu; rw [hu]; exact h2) []
    deref_nil_facts.1 deref_nil_facts.2.1 deref_nil_facts.2.2.1 deref_nil_facts.2.2.2
  simpa [joinTerms] using h

/-- C11: for two well-formed terms `t1` and `t2`, a combination is in the Range
built from `t1,t2` exactly when it is in the Range built from `t1` or in the
Range built from `t2`; the Range built from `t2,t1` has the same
`combinations()` sequence. -/
theorem comma_is_union (t1 t2 : List Char) (h1 : WellFormedTerm (normalize t1))
    (h2 : WellFormedTerm (normalize t2)) :
    (∀ p : Nat × Nat, p ∈ (CardRange.ofText (t1 ++ ',' :: t2)).combinations ↔
      (p ∈ (CardRange.ofText t1).combinations ∨ p ∈ (CardRange.ofText t2).combinations)) ∧
    (CardRange.ofText (t1 ++ ',' :: t2)).combinations =
      (CardRange.ofText (t2 ++ ',' :: t1)).combinations := by
  have key : ∀ (u1 u2 : List Char), WellFormedTerm (normalize u1) →
      WellFormedTerm (normalize u2) →
      ∀ p : Nat × Nat, p ∈ (CardRange.ofText (u1 ++ ',' :: u2)).mCombinations ↔
        (p ∈ (CardRange.ofText u1).mCombinations ∨ p ∈ (CardRange.ofText u2).mCombinations) := by
    intro u1 u2 g1 g2 p
    rw [ofText_two_terms u1 u2 g1 g2, ofText_one_term u1 g1, ofText_one_term u2 g2,
      mem_removeDuplicates, mem_removeDuplicates, mem_removeDuplicates,
      (parseHand_appends _ (normalize u2)).2.2, List.mem_append]
  simp only [combinations_eq]
  refine ⟨key t1 t2 h1 h2, ?_⟩
  have s1 : (CardRange.ofText (t1 ++ ',' :: t2)).mCombinations.Pairwise keyLt := by
    rw [ofText_two_terms t1 t2 h1 h2]; exact removeDuplicates_sorted _
  have s2 : (CardRange.ofText (t2 ++ ',' :: t1)).mCombinations.Pairwise keyLt := by
    rw [ofText_two_terms t2 t1 h2 h1]; exact removeDuplicates_sorted _
  refine eq_of_sorted_of_mem_iff _ _ s1 s2 ?_
  intro p
  rw [key t1 t2 h1 h2, key t2 t1 h2 h1]
  exact Or.comm

/-- C11, at the terms `AKs` and `4d4h`: the pair of the cards 48 and 44 comes
from the first term, the pair of the cards 10 and 9 from the second. -/
theorem comma_is_union_witness :
    ((48, 44) ∈ (CardRange.ofText ['A', 'K', 's', ',', '4', 'd', '4', 'h']).combinations ∧
      (10, 9) ∈ (CardRange.ofText ['A', 'K', 's', ',', '4', 'd', '4', 'h']).combinations) ∧
    (CardRange.ofText ['A', 'K', 's', ',', '4', 'd', '4', 'h']).combinations =
      (CardRange.ofText ['4', 'd', '4', 'h', ',', 'A', 'K', 's']).combinations :=
  ⟨⟨((comma_is_union ['A', 'K', 's'] ['4', 'd', '4', 'h']
        (Or.inl ⟨'a', 'k', ['s'], by decide, by decide, by decide, by decide⟩)
        (Or.inr ⟨'4', 'd', '4', 'h', by decide, by decide, by decide, by decide, by decide,
          by decide⟩)).1 (48, 44)).2 (Or.inl (by decide)),
    ((comma_is_union ['A', 'K', 's'] ['4', 'd', '4', 'h']
        (Or.inl ⟨'a', 'k', ['s'], by decide, by decide, by decide, by decide⟩)
        (Or.inr ⟨'4', 'd', '4', 'h', by decide, by decide, by decide, by decide, by decide,
          by decide⟩)).1 (10, 9)).2 (Or.inr (by decide))⟩,
   (comma_is_union ['A', 'K', 's'] ['4', 'd', '4', 'h']
        (Or.inl ⟨'a', 'k', ['s'], by decide, by decide, by decide, by decide⟩)
        (Or.inr ⟨'4', 'd', '4', 'h', by decide, by decide, by decide, by decide, by decide,
          by decide⟩)).2⟩

/-- C13: for an expression of one or more well-formed terms separated by commas,
followed by a text whose normalized form is empty or begins with a character
other than `,`, `+`, `o` and `s`, the constructor builds the same Range as for
the expression alone, so the same `combinations()`, and no assertion fails. -/
theorem trailing_text_is_ignored (ts : List (List Char)) (x : List Char) (hne : ts ≠ [])
    (hwf : ∀ t ∈ ts, WellFormedTerm (normalize t))
    (hc : deref (normalize x) ≠ ',') (hp : deref (normalize x) ≠ '+')
    (ho : deref (normalize x) ≠ 'o') (hs : deref (normalize x) ≠ 's') :
    CardRange.ofText (joinTerms ts ++ x) = CardRange.ofText (joinTerms ts) ∧
    (CardRange.ofText (joinTerms ts ++ x)).combinations =
      (CardRange.ofText (joinTerms ts)).combinations ∧
    (CardRange.ofText (joinTerms ts ++ x)).assertsHeld = true := by
  have e : CardRange.ofText (joinTerms ts ++ x) = CardRange.ofText (joinTerms ts) := by
    have h0 := ofText_terms ts hne hwf []
      deref_nil_facts.1 deref_nil_facts.2.1 deref_nil_facts.2.2.1 deref_nil_facts.2.2.2
    rw [List.append_nil] at h0
    rw [ofText_terms ts hne hwf x hc ho hs hp, h0]
  exact ⟨e, by rw [e], (Stored.ofText _).1⟩

/-- C13, at the expression `AKs,76o+` followed by ` junk`. -/
theorem trailing_text_is_ignored_witness :
    (CardRange.ofText (joinTerms [['A', 'K', 's'], ['7', '6', 'o', '+']] ++
        [' ', 'j', 'u', 'n', 'k'])).combinations =
      (CardRange.ofText (joinTerms [['A', 'K', 's'], ['7', '6', 'o', '+']])).combinations :=
  (trailing_text_is_ignored [['A', 'K', 's'], ['7', '6', 'o', '+']] [' ', 'j', 'u', 'n', 'k']
    (by decide)
    (fun t ht => by
      rcases List.mem_cons.1 ht with rfl | ht
      · exact Or.inl ⟨'a', 'k', ['s'], by decide, by decide, by decide, by decide⟩
      · rw [List.mem_singleton] at ht
        rw [ht]
        exact Or.inl ⟨'7', '6', ['o', '+'], by decide, by decide, by decide, by decide⟩)
    (by decide) (by decide) (by decide) (by decide)).2.1

/-! ### Case and blanks -/

theorem upper_facts (a : Char) (h1 : 65 ≤ a.toNat) (h2 : a.toNat ≤ 90) :
    isgraph a = true ∧ isgraph (tolower a) = true ∧ tolower (tolower a) = tolower a := by
  have key : ∀ n, 65 ≤ n → n ≤ 90 →
      isgraph (Char.ofNat n) = true ∧ isgraph (tolower (Char.ofNat n)) = true ∧
        tolower (tolower (Char.ofNat n)) = tolower (Char.ofNat n) := by
    intro n h1 h2
    interval_cases n <;> decide
  have := key a.toNat h1 h2
  rwa [Char.ofNat_toNat] at this

theorem normalize_eq_of_same (t t' : List Char) (h : SameUpToCaseAndBlanks t t') :
    normalize t' = normalize t := by
  induction h with
  | done => rfl
  | keep a l l' _ ih => rw [normalize_cons, normalize_cons, ih]
  | toLower a l l' h1 h2 _ ih =>
    obtain ⟨g1, g2, g3⟩ := upper_facts a h1 h2
    rw [normalize_cons, normalize_cons, ih, g1, g2, g3]
  | toUpper a l l' h1 h2 _ ih =>
    obtain ⟨g1, g2, g3⟩ := upper_facts a h1 h2
    rw [normalize_cons, normalize_cons, ih, g1, g2, g3]
  | insert c l l' hc _ ih => rw [normalize_cons, ih, hc]; rfl
  | delete c l l' hc _ ih => rw [normalize_cons, ih, hc]; rfl

theorem ofText_eq_of_normalize_eq (t t' : List Char) (h : normalize t' = normalize t) :
    CardRange.ofText t' = CardRange.ofText t := by
  unfold CardRange.ofText
  simp only [h]

/-- C12: when `t'` is obtained from `t` by changing the case of letters and by
inserting or deleting characters that are not graphic, the Range built from
`t'` is the Range built from `t`: the same `combinations()` sequence. -/
theorem range_ignores_case_and_blanks (t t' : List Char) (h : SameUpToCaseAndBlanks t t') :
    (CardRange.ofText t').combinations = (CardRange.ofText t).combinations := by
  rw [ofText_eq_of_normalize_eq t t' (normalize_eq_of_same t t' h)]

/-- C12, at the texts `K4` and `k 4`: the `K` lowered, a blank put in. -/
theorem range_ignores_case_and_blanks_witness :
    (CardRange.ofText ['k', ' ', '4']).combinations =
      (CardRange.ofText ['K', '4']).combinations :=
  range_ignores_case_and_blanks ['K', '4'] ['k', ' ', '4']
    (SameUpToCaseAndBlanks.toLower 'K' ['4'] [' ', '4'] (by decide) (by decide)
      (SameUpToCaseAndBlanks.insert ' ' ['4'] ['4'] (by decide)
        (SameUpToCaseAndBlanks.keep '4' [] [] SameUpToCaseAndBlanks.done)))

/-! ### The masks -/

theorem one_and_ne_zero (mask : Nat) : ((1 &&& mask) != 0) = mask.testBit 0 := by
  rw [Nat.one_and_eq_mod_two, Nat.testBit_zero]
  rcases Nat.mod_two_eq_zero_or_one mask with h | h <;> simp [h]

/-- One step of the two mask loops, on the bits: the lowest bit of `mask` goes to
position `i`, the other bits are those of `mask >>> 1` from position `i + 1`. -/
theorem shift_step (mask i acc : Nat) :
    (if mask.testBit 0 = true then acc ||| (1 <<< i) else acc) ||| ((mask >>> 1) <<< (i + 1)) =
      acc ||| (mask <<< i) := by
  apply Nat.eq_of_testBit_eq
  intro j
  by_cases h0 : mask.testBit 0 = true
  · simp only [h0, if_true, Nat.testBit_lor, Nat.testBit_shiftLeft, Nat.testBit_shiftRight,
      Nat.one_shiftLeft, Nat.testBit_two_pow]
    rcases Nat.lt_trichotomy j i with h | h | h
    · have e1 : ¬ (j ≥ i + 1) := by omega
      have e2 : ¬ (j ≥ i) := by omega
      have e3 : ¬ (i = j) := by omega
      simp [e1, e2, e3]
    · subst h
      simp [h0]
    · have e1 : j ≥ i + 1 := by omega
      have e2 : j ≥ i := by omega
      have e3 : ¬ (i = j) := by omega
      have e4 : 1 + (j - (i + 1)) = j - i := by omega
      simp [e1, e2, e3, e4]
  · simp only [h0, if_false, Nat.testBit_lor, Nat.testBit_shiftLeft, Nat.testBit_shiftRight,
      Bool.false_eq_true]
    rcases Nat.lt_trichotomy j i with h | h | h
    · have e1 : ¬ (j ≥ i + 1) := by omega
      have e2 : ¬ (j ≥ i) := by omega
      simp [e1, e2]
    · subst h
      simp [h0]
    · have e1 : j ≥ i + 1 := by omega
      have e2 : j ≥ i := by omega
      have e4 : 1 + (j - (i + 1)) = j - i := by omega
      simp [e1, e2, e4]

theorem shiftRight_one_lt (mask n : Nat) (h : mask < 2 ^ (n + 1)) : mask >>> 1 < 2 ^ n := by
  rw [Nat.shiftRight_eq_div_pow, pow_one]
  rw [pow_succ] at h
  omega

/-- The result of `cardMaskToStrLoop` is the same for every bound from the width
of the mask on: the bound 64 of `cardMaskToStr` is never the reason the loop
stops on a 64-bit mask. -/
theorem cardMaskToStrLoop_fuel (n m mask i : Nat) (cards : List Char) (hn : mask < 2 ^ n)
    (hm : mask < 2 ^ m) :
    cardMaskToStrLoop n mask i cards = cardMaskToStrLoop m mask i cards := by
  induction n generalizing m mask i cards with
  | zero =>
    have h0 : mask = 0 := by simpa using hn
    subst h0
    cases m <;> simp [cardMaskToStrLoop]
  | succ n ih =>
    cases m with
    | zero =>
      have h0 : mask = 0 := by simpa using hm
      subst h0
      simp [cardMaskToStrLoop]
    | succ m =>
      unfold cardMaskToStrLoop
      split
      · rfl
      · exact ih m _ _ _ (shiftRight_one_lt mask n hn) (shiftRight_one_lt mask m hm)

/-- The same for the loop of `handMaskToStr`. -/
theorem handMaskLoop_fuel (n m mask i acc : Nat) (hn : mask < 2 ^ n) (hm : mask < 2 ^ m) :
    handMaskLoop n mask i acc = handMaskLoop m mask i acc := by
  induction n generalizing m mask i acc with
  | zero =>
    have h0 : mask = 0 := by simpa using hn
    subst h0
    cases m <;> simp [handMaskLoop]
  | succ n ih =>
    cases m with
    | zero =>
      have h0 : mask = 0 := by simpa using hm
      subst h0
      simp [handMaskLoop]
    | succ m =>
      unfold handMaskLoop
      split
      · rfl
      · exact ih m _ _ _ (shiftRight_one_lt mask n hn) (shiftRight_one_lt mask m hm)

theorem cardMaskToStrLoop_append (fuel mask i : Nat) (cards : List Char) :
    cardMaskToStrLoop fuel mask i cards = cards ++ cardMaskToStrLoop fuel mask i [] := by
  induction fuel generalizing mask i cards with
  | zero => simp [cardMaskToStrLoop]
  | succ n ih =>
    unfold cardMaskToStrLoop
    split
    · simp
    · split
      · rw [ih, ih (mask >>> 1) (i + 1) ([] ++ cardNumberToStr i)]
        simp
      · exact ih _ _ _

theorem getCardMaskLoop_cons_cons (c0 c1 : Char) (rest : List Char) (cards : Nat) :
    getCardMaskLoop (c0 :: c1 :: rest) cards =
      if (charToRank c0 == NOT_FOUND || charToSuit c1 == NOT_FOUND) = true then cards
      else getCardMaskLoop rest (cards ||| (1 <<< (4 * charToRank c0 + charToSuit c1))) := by
  rw [getCardMaskLoop]

theorem getCardMaskLoop_card (j : Nat) (hj : j < 52) (rest : List Char) (acc : Nat) :
    getCardMaskLoop (normalize (cardNumberToStr j) ++ rest) acc =
      getCardMaskLoop rest (acc ||| (1 <<< j)) := by
  obtain ⟨a1, b1⟩ := cardChars j hj
  have ga : charToRank (rankToChar (j / 4)) ≠ NOT_FOUND := by rw [a1]; unfold NOT_FOUND; omega
  have gb : charToSuit (suitToChar (j % 4)) ≠ NOT_FOUND := by rw [b1]; unfold NOT_FOUND; omega
  have hn : normalize (cardNumberToStr j) =
      [tolower (rankToChar (j / 4)), suitToChar (j % 4)] := by
    unfold cardNumberToStr
    rw [normalize_cons_rank _ _ ga, normalize_cons_suit _ _ gb]
    rfl
  rw [hn]
  simp only [List.cons_append, List.nil_append]
  rw [getCardMaskLoop_cons_cons]
  have e : 4 * (j / 4) + j % 4 = j := by omega
  simp only [(rankChar_facts _ ga).2.1, a1, b1, e]
  have n1 : (j / 4 == NOT_FOUND) = false := by
    rw [beq_eq_false_iff_ne]; unfold NOT_FOUND; omega
  have n2 : (j % 4 == NOT_FOUND) = false := by
    rw [beq_eq_false_iff_ne]; unfold NOT_FOUND; omega
  simp [n1, n2]

theorem getCardMask_cardMaskToStrLoop (fuel mask i acc : Nat) (hf : mask < 2 ^ fuel)
    (hm : mask < 2 ^ (52 - i)) :
    getCardMaskLoop (normalize (cardMaskToStrLoop fuel mask i [])) acc = acc ||| (mask <<< i) := by
  induction fuel generalizing mask i acc with
  | zero =>
    have h0 : mask = 0 := by simpa using hf
    subst h0
    simp [cardMaskToStrLoop, normalize, getCardMaskLoop]
  | succ n ih =>
    unfold cardMaskToStrLoop
    by_cases h0 : mask = 0
    · subst h0
      simp [normalize, getCardMaskLoop]
    · have hi : i < 52 := by
        by_contra hc
        have : 52 - i = 0 := by omega
        rw [this] at hm
        omega
      have hm' : mask >>> 1 < 2 ^ (52 - (i + 1)) := by
        apply shiftRight_one_lt
        have : 52 - (i + 1) + 1 = 52 - i := by omega
        rw [this]; exact hm
      simp only [h0, if_false, one_and_ne_zero]
      rw [← shift_step mask i acc]
      by_cases hb : mask.testBit 0 = true
      · simp only [hb, if_true, List.nil_append]
        rw [cardMaskToStrLoop_append, normalize_append, getCardMaskLoop_card i hi,
          ih _ _ _ (shiftRight_one_lt mask n hf) hm']
      · simp only [hb, if_false, Bool.false_eq_true]
        rw [ih _ _ _ (shiftRight_one_lt mask n hf) hm']

/-- C14: `getCardMask (cardMaskToStr m) = m` for every card mask `m`, a value
whose set bits are all below 52; in particular for those with no more than 26
bits set. -/
theorem card_mask_round_trip (m : Nat) (hm : m < 2 ^ 52) : getCardMask (cardMaskToStr m) = m := by
  unfold getCardMask cardMaskToStr
  rw [getCardMask_cardMaskToStrLoop 64 m 0 0
    (lt_of_lt_of_le hm (Nat.pow_le_pow_right (by decide) (by decide))) (by simpa using hm)]
  simp

/-- C14, at the mask of the cards 0, 31 and 50, the string `2c8hAh`. -/
theorem card_mask_round_trip_witness :
    getCardMask (cardMaskToStr 1125899973951489) = 1125899973951489 :=
  card_mask_round_trip 1125899973951489 (by decide)

theorem testBit_one_shiftLeft (n j : Nat) : (1 <<< n).testBit j = decide (n = j) := by
  rw [Nat.one_shiftLeft, Nat.testBit_two_pow]

/-- The bits of the card mask that the loop of `handMaskToStr` builds: bit `j` is
set when it was set before or when it is the card of a set bit of the hand
mask. -/
theorem handMaskLoop_testBit (fuel mask i acc j : Nat) (hf : mask < 2 ^ fuel) :
    (handMaskLoop fuel mask i acc).testBit j = true ↔
      (acc.testBit j = true ∨
        ∃ k, mask.testBit k = true ∧
          j = 4 * ((i + k) % 16) + ((4294967295 ^^^ ((i + k) / 16)) &&& 3)) := by
  induction fuel generalizing mask i acc with
  | zero =>
    have h0 : mask = 0 := by simpa using hf
    subst h0
    simp [handMaskLoop]
  | succ n ih =>
    unfold handMaskLoop
    by_cases h0 : mask = 0
    · subst h0
      simp
    · simp only [h0, if_false, one_and_ne_zero]
      rw [ih _ _ _ (shiftRight_one_lt mask n hf)]
      simp only [Nat.testBit_shiftRight]
      constructor
      · rintro (h | ⟨k, hk, rfl⟩)
        · by_cases hb : mask.testBit 0 = true
          · simp only [hb, if_true, Nat.testBit_lor, Bool.or_eq_true, testBit_one_shiftLeft,
              decide_eq_true_eq] at h
            rcases h with h | h
            · exact Or.inl h
            · exact Or.inr ⟨0, hb, by rw [← h]; simp⟩
          · simp only [hb, if_false, Bool.false_eq_true] at h
            exact Or.inl h
        · refine Or.inr ⟨1 + k, hk, ?_⟩
          have : i + 1 + k = i + (1 + k) := by omega
          rw [this]
      · rintro (h | ⟨k, hk, rfl⟩)
        · left
          split
          · simp [Nat.testBit_lor, h]
          · exact h
        · cases k with
          | zero =>
            left
            simp only [Nat.add_zero] at hk ⊢
            simp [hk, Nat.testBit_lor, testBit_one_shiftLeft]
          | succ k =>
            right
            refine ⟨k, ?_, ?_⟩
            · have : 1 + k = k + 1 := by omega
              rw [this]; exact hk
            · have : i + 1 + k = i + (k + 1) := by omega
              rw [this]

theorem cardMaskOf_testBit (cards : List (Nat × Nat)) (j : Nat) :
    (cardMaskOf cards).testBit j = true ↔ ∃ c ∈ cards, j = 4 * c.1 + c.2 := by
  induction cards with
  | nil => simp [cardMaskOf]
  | cons c cards ih =>
    simp only [cardMaskOf, Nat.testBit_lor, Bool.or_eq_true, testBit_one_shiftLeft,
      decide_eq_true_eq, ih, List.mem_cons, exists_eq_or_imp]
    constructor
    · rintro (h | h)
      · exact Or.inl h.symm
      · exact Or.inr h
    · rintro (h | h)
      · exact Or.inl h.symm
      · exact Or.inr h

theorem handMaskOf_testBit (cards : List (Nat × Nat)) (k : Nat) :
    (handMaskOf cards).testBit k = true ↔ ∃ c ∈ cards, k = (3 - c.2) * 16 + c.1 := by
  induction cards with
  | nil => simp [handMaskOf]
  | cons c cards ih =>
    simp only [handMaskOf, Nat.testBit_lor, Bool.or_eq_true, testBit_one_shiftLeft,
      decide_eq_true_eq, ih, List.mem_cons, exists_eq_or_imp]
    constructor
    · rintro (h | h)
      · exact Or.inl h.symm
      · exact Or.inr h
    · rintro (h | h)
      · exact Or.inl h.symm
      · exact Or.inr h

theorem handMaskOf_lt (cards : List (Nat × Nat)) (h : ∀ c ∈ cards, c.1 ≤ 12 ∧ c.2 ≤ 3) :
    handMaskOf cards < 2 ^ 64 := by
  apply Nat.lt_pow_two_of_testBit
  intro i hi
  by_contra hc
  rw [Bool.not_eq_false] at hc
  obtain ⟨c, hc1, hc2⟩ := (handMaskOf_testBit cards i).1 hc
  have := h c hc1
  omega

theorem hand_bit_to_card :
    ∀ r < 13, ∀ s < 4,
      4 * (((3 - s) * 16 + r) % 16) + ((4294967295 ^^^ (((3 - s) * 16 + r) / 16)) &&& 3) =
        4 * r + s := by
  decide

/-- C15: for every list of cards `(rank, suit)` with rank at most 12 and suit at
most 3, `handMaskToStr` of the hand mask (bit `(3 - suit) * 16 + rank` for each
card) is `cardMaskToStr` of the card mask (bit `4 * rank + suit` for each card):
the loop sends each set bit `i` of the hand mask to the card
`4 * (i % 16) + (~(i / 16) & 3)`, and these cards make up the card mask. -/
theorem hand_mask_agrees_with_card_mask (cards : List (Nat × Nat))
    (h : ∀ c ∈ cards, c.1 ≤ 12 ∧ c.2 ≤ 3) :
    handMaskToStr (handMaskOf cards) = cardMaskToStr (cardMaskOf cards) ∧
    (∀ j : Nat, (handMaskLoop 64 (handMaskOf cards) 0 0).testBit j = true ↔
      ∃ i, (handMaskOf cards).testBit i = true ∧
        j = 4 * (i % 16) + ((4294967295 ^^^ (i / 16)) &&& 3)) := by
  have bits : ∀ j : Nat, (handMaskLoop 64 (handMaskOf cards) 0 0).testBit j = true ↔
      ∃ i, (handMaskOf cards).testBit i = true ∧
        j = 4 * (i % 16) + ((4294967295 ^^^ (i / 16)) &&& 3) := by
    intro j
    rw [handMaskLoop_testBit 64 _ 0 0 j (handMaskOf_lt cards h)]
    simp
  refine ⟨?_, bits⟩
  unfold handMaskToStr
  congr 1
  apply Nat.eq_of_testBit_eq
  intro j
  rw [Bool.eq_iff_iff, bits, cardMaskOf_testBit]
  constructor
  · rintro ⟨i, hi, rfl⟩
    obtain ⟨c, hc, rfl⟩ := (handMaskOf_testBit cards i).1 hi
    have := h c hc
    exact ⟨c, hc, hand_bit_to_card c.1 (by omega) c.2 (by omega)⟩
  · rintro ⟨c, hc, rfl⟩
    have := h c hc
    exact ⟨(3 - c.2) * 16 + c.1, (handMaskOf_testBit cards _).2 ⟨c, hc, rfl⟩,
      (hand_bit_to_card c.1 (by omega) c.2 (by omega)).symm⟩

/-- C15, at the cards `(0, 0)`, `(12, 3)` and `(5, 2)`. -/
theorem hand_mask_agrees_with_card_mask_witness :
    handMaskToStr (handMaskOf [(0, 0), (12, 3), (5, 2)]) =
      cardMaskToStr (cardMaskOf [(0, 0), (12, 3), (5, 2)]) :=
  (hand_mask_agrees_with_card_mask [(0, 0), (12, 3), (5, 2)] (by decide)).1

/-! ### The numbering of the cards -/

/-- C16: the code at the inputs of the header's examples. The header numbers the
cards 0, 1, 2, 3, 4, ..., 51 as 2s, 2h, 2c, 2d, 3s, ..., Ad and gives `2s` the
mask `0x1`; `suitToChar` and `charToSuit` number the suits c, d, h, s, so
the cards 0, 1, 2, 3, 4, 51 are written 2c, 2d, 2h, 2s, 3c, As and the mask of
`2s` is `0x8`. -/
theorem header_numbering_evaluated :
    cardNumberToStr 0 = ['2', 'c'] ∧ cardNumberToStr 1 = ['2', 'd'] ∧
    cardNumberToStr 2 = ['2', 'h'] ∧ cardNumberToStr 3 = ['2', 's'] ∧
    cardNumberToStr 4 = ['3', 'c'] ∧ cardNumberToStr 51 = ['A', 's'] ∧
    getCardMask ['2', 's'] = 8 ∧ getCardMask ['2', 'c'] = 1 := by
  decide

theorem strToCardNumber_invalid_rank (c0 c1 : Char) (h : charToRank c0 = NOT_FOUND) :
    52 ≤ strToCardNumber [c0, c1] := by
  unfold strToCardNumber
  simp only [List.getD_cons_zero, List.getD_cons_succ, h]
  rcases charToSuit_cases c1 with hs | hs
  · rw [hs]; decide
  · have := charToSuit_lt c1 (by
      simp only [List.mem_cons, List.mem_singleton, List.not_mem_nil, or_false] at hs
      rcases hs with rfl | rfl | rfl | rfl <;> decide)
    unfold NOT_FOUND
    omega

/-- C17: the code at the string `3x`. The suit character is not one of c, d, h,
s, so `charToSuit` gives `~0u`, and `4 * 1 + ~0u` wraps to 3 in 32 bits: the
result is the valid card index 3, which is also the index of the card string
`2s`. -/
theorem strToCardNumber_invalid_suit_evaluated :
    charToRank '3' = 1 ∧ charToSuit 'x' = NOT_FOUND ∧
    strToCardNumber ['3', 'x'] = 3 ∧ cardNumberToStr 3 = ['2', 's'] ∧
    strToCardNumber ['2', 's'] = 3 := by
  decide

/-! ### The assertion of `addCombo` and the order of the sequence -/

/-- C18: for every text, every `omp_assert(c1 != c2)` evaluated while the
expression constructor runs (the literal `random` included) holds, and no
stored combination has the same card twice. The flag does record a failed
assertion: it is false for the vector `[(3, 3)]`. -/
theorem parser_never_pairs_a_card_with_itself :
    (∀ text : List Char, (CardRange.ofText text).assertsHeld = true ∧
      ∀ p ∈ (CardRange.ofText text).combinations, p.1 ≠ p.2) ∧
    (CardRange.ofVector [(3, 3)]).assertsHeld = false := by
  refine ⟨fun text => ⟨(Stored.ofText text).1, fun p hp => ?_⟩, by decide⟩
  have := (Stored.ofText text).2 p hp
  omega

theorem removeDuplicates_chain (r : CardRange) :
    List.Chain' (fun x y => comboLess x y = true ∧ keyLt x y ∧ x ≠ y)
      r.removeDuplicates.mCombinations := by
  refine List.Pairwise.chain' ((removeDuplicates_sorted r).imp ?_)
  intro x y h
  refine ⟨(comboLess_iff x y).2 h, h, ?_⟩
  rintro rfl
  exact keyLt_irrefl x h

/-- C19: for every constructed Range (expression constructor, any text; vector
constructor, any list) each entry of `combinations()` is strictly smaller than
the next one for the comparator of `removeDuplicates`, that is, in the
lexicographic order of rank of the first card, rank of the second card, suit
of the first card, suit of the second card, all ascending; so no two adjacent
entries are equal. -/
theorem combinations_strictly_increasing :
    (∀ text : List Char,
      List.Chain' (fun x y => comboLess x y = true ∧ keyLt x y ∧ x ≠ y)
        (CardRange.ofText text).combinations) ∧
    (∀ combos : List (Nat × Nat),
      List.Chain' (fun x y => comboLess x y = true ∧ keyLt x y ∧ x ≠ y)
        (CardRange.ofVector combos).combinations) :=
  ⟨fun _ => removeDuplicates_chain _, fun _ => removeDuplicates_chain _⟩

/-! ### The vector constructor -/

theorem ofVector_raw (combos : List (Nat × Nat)) :
    (combos.foldl (fun acc combo => acc.addCombo combo.1 combo.2) CardRange.empty).mCombinations
      = combos.map (fun p => storedPair p.1 p.2) := by
  rw [foldl_list (fun acc combo => acc.addCombo combo.1 combo.2)
    (fun p => [storedPair p.1 p.2]) combos (fun acc a _ => addCombo_list acc a.1 a.2)]
  simp only [CardRange.empty, List.nil_append]
  induction combos with
  | nil => rfl
  | cons a l ih => simp [List.flatMap_cons, ih]

theorem mem_ofVector (combos : List (Nat × Nat)) (x : Nat × Nat) :
    x ∈ (CardRange.ofVector combos).mCombinations ↔
      ∃ p ∈ combos, x = storedPair p.1 p.2 := by
  unfold CardRange.ofVector
  rw [mem_removeDuplicates, ofVector_raw, List.mem_map]
  constructor
  · rintro ⟨p, hp, rfl⟩; exact ⟨p, hp, rfl⟩
  · rintro ⟨p, hp, rfl⟩; exact ⟨p, hp, rfl⟩

theorem storedPair_comm (a b : Nat) (ha : a < 256) (hb : b < 256) (hne : a ≠ b) :
    storedPair a b = storedPair b a := by
  rw [storedPair_eq a b ha hb hne, storedPair_eq b a hb ha (Ne.symm hne)]
  split_ifs <;> first | rfl | omega

theorem storedPair_of_canonical (p : Nat × Nat) (h1 : p.1 < 256)
    (h : p.2 / 4 < p.1 / 4 ∨ (p.1 / 4 = p.2 / 4 ∧ p.2 % 4 < p.1 % 4)) :
    storedPair p.1 p.2 = p := by
  rcases h with h | ⟨h, hs⟩
  · exact storedPair_of_gt h h1
  · exact storedPair_of_eq_ge h (by omega) h1

/-- The unordered pairs of the result of the vector constructor are those of
its argument. -/
theorem ofVector_pairs (v : List (Nat × Nat))
    (h : ∀ p ∈ v, p.1 < 256 ∧ p.2 < 256 ∧ p.1 ≠ p.2) (a b : Nat) :
    ((a, b) ∈ (CardRange.ofVector v).mCombinations ∨
      (b, a) ∈ (CardRange.ofVector v).mCombinations) ↔ ((a, b) ∈ v ∨ (b, a) ∈ v) := by
  have key : ∀ x y : Nat, (x, y) ∈ (CardRange.ofVector v).mCombinations →
      ((x, y) ∈ v ∨ (y, x) ∈ v) := by
    intro x y hx
    obtain ⟨⟨c, d⟩, hp, e⟩ := (mem_ofVector v (x, y)).1 hx
    have hb := h (c, d) hp
    simp only [] at hb e
    rw [storedPair_eq c d hb.1 hb.2.1 hb.2.2] at e
    split at e
    · rw [e]; exact Or.inl hp
    · rw [Prod.mk.injEq] at e
      rw [e.1, e.2]; exact Or.inr hp
  have back : ∀ x y : Nat, (x, y) ∈ v →
      ((x, y) ∈ (CardRange.ofVector v).mCombinations ∨
        (y, x) ∈ (CardRange.ofVector v).mCombinations) := by
    intro x y hp
    have hb := h (x, y) hp
    simp only [] at hb
    have hm : storedPair x y ∈ (CardRange.ofVector v).mCombinations :=
      (mem_ofVector v _).2 ⟨(x, y), hp, rfl⟩
    rw [storedPair_eq x y hb.1 hb.2.1 hb.2.2] at hm
    split at hm
    · exact Or.inl hm
    · exact Or.inr hm
  constructor
  · rintro (hx | hx)
    · exact key a b hx
    · exact (key b a hx).symm
  · rintro (hx | hx)
    · exact back a b hx
    · exact (back b a hx).symm

/-- C20: for a list `v` of pairs of different bytes, an unordered pair occurs in
`CardRange(v).combinations()` exactly when it occurs in `v`; a list `w` with the
same unordered pairs (another order, pairs turned round, repetitions) gives
the same sequence; and building a Range from the combinations of `CardRange(v)`
gives these combinations again. -/
theorem vector_constructor_preserves_set (v : List (Nat × Nat))
    (h : ∀ p ∈ v, p.1 < 256 ∧ p.2 < 256 ∧ p.1 ≠ p.2) :
    (∀ a b : Nat,
      ((a, b) ∈ (CardRange.ofVector v).combinations ∨
        (b, a) ∈ (CardRange.ofVector v).combinations) ↔ ((a, b) ∈ v ∨ (b, a) ∈ v)) ∧
    (∀ w : List (Nat × Nat), (∀ p ∈ w, p.1 < 256 ∧ p.2 < 256 ∧ p.1 ≠ p.2) →
      (∀ a b : Nat, ((a, b) ∈ w ∨ (b, a) ∈ w) ↔ ((a, b) ∈ v ∨ (b, a) ∈ v)) →
      (CardRange.ofVector w).combinations = (CardRange.ofVector v).combinations) ∧
    (CardRange.ofVector (CardRange.ofVector v).combinations).combinations =
      (CardRange.ofVector v).combinations := by
  have hst := Stored.ofVector v h
  have same : ∀ u : List (Nat × Nat), (∀ p ∈ u, p.1 < 256 ∧ p.2 < 256 ∧ p.1 ≠ p.2) →
      (∀ a b : Nat, ((a, b) ∈ u ∨ (b, a) ∈ u) ↔ ((a, b) ∈ v ∨ (b, a) ∈ v)) →
      (CardRange.ofVector u).mCombinations = (CardRange.ofVector v).mCombinations := by
    intro u hu huv
    refine eq_of_sorted_of_mem_iff _ _ (removeDuplicates_sorted _) (removeDuplicates_sorted _) ?_
    have half : ∀ (s t : List (Nat × Nat)), (∀ p ∈ s, p.1 < 256 ∧ p.2 < 256 ∧ p.1 ≠ p.2) →
        (∀ p ∈ t, p.1 < 256 ∧ p.2 < 256 ∧ p.1 ≠ p.2) →
        (∀ a b : Nat, ((a, b) ∈ s ∨ (b, a) ∈ s) → ((a, b) ∈ t ∨ (b, a) ∈ t)) →
        ∀ x, x ∈ (CardRange.ofVector s).mCombinations →
          x ∈ (CardRange.ofVector t).mCombinations := by
      intro s t hs ht hst x hx
      obtain ⟨⟨c, d⟩, hp, e⟩ := (mem_ofVector s x).1 hx
      have hb := hs (c, d) hp
      simp only [] at hb e
      rcases hst c d (Or.inl hp) with hq | hq
      · exact (mem_ofVector t x).2 ⟨(c, d), hq, e⟩
      · refine (mem_ofVector t x).2 ⟨(d, c), hq, ?_⟩
        rw [e]
        exact storedPair_comm c d hb.1 hb.2.1 hb.2.2
    intro x
    exact ⟨half u v hu h (fun a b => (huv a b).1) x, half v u h hu (fun a b => (huv a b).2) x⟩
  rw [combinations_eq]
  refine ⟨ofVector_pairs v h, ?_, ?_⟩
  · intro w hw hwv
    rw [combinations_eq]
    exact same w hw hwv
  · rw [combinations_eq]
    refine eq_of_sorted_of_mem_iff _ _ (removeDuplicates_sorted _) (removeDuplicates_sorted _) ?_
    intro x
    rw [mem_ofVector]
    constructor
    · rintro ⟨p, hp, rfl⟩
      have := hst.2 p hp
      rw [storedPair_of_canonical p this.1 this.2.2]
      exact hp
    · intro hx
      have := hst.2 x hx
      exact ⟨x, hx, (storedPair_of_canonical x this.1 this.2.2).symm⟩

/-- C20, at the vectors `[(2, 53), (7, 4), (53, 2)]` and `[(4, 7), (53, 2)]`. -/
theorem vector_constructor_preserves_set_witness :
    (((53, 2) ∈ (CardRange.ofVector [(2, 53), (7, 4), (53, 2)]).combinations ∨
        (2, 53) ∈ (CardRange.ofVector [(2, 53), (7, 4), (53, 2)]).combinations) ↔
      ((53, 2) ∈ [(2, 53), (7, 4), (53, 2)] ∨ (2, 53) ∈ [(2, 53), (7, 4), (53, 2)])) ∧
    (CardRange.ofVector [(4, 7), (53, 2)]).combinations =
      (CardRange.ofVector [(2, 53), (7, 4), (53, 2)]).combinations ∧
    (CardRange.ofVector (CardRange.ofVector [(2, 53), (7, 4), (53, 2)]).combinations).combinations =
      (CardRange.ofVector [(2, 53), (7, 4), (53, 2)]).combinations :=
  ⟨(vector_constructor_preserves_set [(2, 53), (7, 4), (53, 2)] (by decide)).1 53 2,
   (vector_constructor_preserves_set [(2, 53), (7, 4), (53, 2)] (by decide)).2.1
     [(4, 7), (53, 2)] (by decide)
     (fun a b => by
       simp only [List.mem_cons, List.mem_singleton, Prod.mk.injEq, List.not_mem_nil, or_false]
       omega),
   (vector_constructor_preserves_set [(2, 53), (7, 4), (53, 2)] (by decide)).2.2⟩

end omp
